import Mathlib

/-!
# Bounded MPMC queue (`src/common/mpmc-bounded-queue.hpp`)

A shallow embedding of `mpmc_bounded_queue_t<T>` as it behaves when one thread calls it.

* `std::size_t` is a `w`-bit unsigned word: a natural number reduced modulo `2 ^ w`.
* `intptr_t` is the `w`-bit two's complement integer; a signed difference that leaves the
  range wraps around.
* `int` (the return type of `size()`) is the `iw`-bit two's complement integer.
* The atomics are plain fields. `compare_exchange_weak` compares the cursor with the
  caller's local copy, stores on equality and otherwise reloads the local copy; it never
  fails spuriously here.
* The `for (;;)` loops run on fuel: a call that needs more iterations than it has fuel for
  ends in `Fault.out_of_fuel`.
* Indexing `_buffer` outside the allocation ends in `Fault.out_of_bounds`.
* An iterator is its `myOffset`; the queue it refers to is passed to `operator_star`.
* The `printf` diagnostics of the two failure branches write to standard output only and
  are left out; the cache-line padding members are left out as well.

* Allocation of the buffer always succeeds.

The first part of the file holds the definitions, the second the lemmas, the last the
claims in order, each followed by its witness or counterexample.
-/

namespace MpmcBoundedQueue

/-- Ways in which a modelled call fails to return. -/
inductive Fault where
  | out_of_fuel
  | out_of_bounds
  deriving DecidableEq, Repr

/-- The value of a `std::size_t` expression: reduction to `w` bits. -/
def to_size_t (w : Nat) (x : Nat) : Nat := x % 2 ^ w

/-- The cast `(intptr_t) x` of a `w`-bit word: its two's complement reading. -/
def to_intptr_t (w : Nat) (x : Nat) : Int :=
  if x % 2 ^ w < 2 ^ (w - 1) then ((x % 2 ^ w : Nat) : Int)
  else ((x % 2 ^ w : Nat) : Int) - ((2 ^ w : Nat) : Int)

/-- The value of a signed `b`-bit expression whose mathematical value is `i`:
two's complement wraparound. -/
def wrap_signed (b : Nat) (i : Int) : Int :=
  if i % ((2 ^ b : Nat) : Int) < ((2 ^ (b - 1) : Nat) : Int) then i % ((2 ^ b : Nat) : Int)
  else i % ((2 ^ b : Nat) : Int) - ((2 ^ b : Nat) : Int)

/-- The expression `(intptr_t) a - (intptr_t) b` of `enqueue` and `dequeue`. -/
def intptr_diff (w : Nat) (a b : Nat) : Int :=
  wrap_signed w (to_intptr_t w a - to_intptr_t w b)

/-- The difference `a - b` of two `std::size_t` values. -/
def size_t_sub (w : Nat) (a b : Nat) : Nat := (a % 2 ^ w + 2 ^ w - b % 2 ^ w) % 2 ^ w

/-- The expression `~x` on a `w`-bit word. -/
def bit_not (w : Nat) (x : Nat) : Nat := 2 ^ w - 1 - x % 2 ^ w

/-- The struct `node_t`: a value and its sequence number. -/
structure node_t (T : Type) where
  data : T
  seq : Nat
  deriving DecidableEq, Repr

/-- The data members of `mpmc_bounded_queue_t` (the padding is left out). -/
structure mpmc_bounded_queue_t (T : Type) where
  _size : Nat
  _mask : Nat
  _buffer : List (node_t T)
  _head_seq : Nat
  _tail_seq : Nat
  deriving DecidableEq, Repr

namespace mpmc_bounded_queue_t

variable {T : Type}

/-- The constructor's assertion `(_size != 0) && ((_size & (~_size + 1)) == _size)`. -/
def size_check (w : Nat) (size : Nat) : Bool :=
  (size != 0) && ((size &&& to_size_t w (bit_not w size + 1)) == size)

/-- The constructor's loop `for (i = 0; i < _size; ++i) _buffer[i].seq.store(i)`, run over
the freshly allocated storage whose slot `i` holds the arbitrary value `mem i`. -/
def seed (mem : Nat → T) (size : Nat) : List (node_t T) :=
  (List.range size).map fun i => ⟨mem i, i⟩

/-- The constructor `mpmc_bounded_queue_t(std::size_t size)`. The storage it allocates is
not initialised by the language, `mem` is what it happens to hold. A failed assertion
aborts, which is `none`. -/
def ctor (w : Nat) (size : Nat) (mem : Nat → T) : Option (mpmc_bounded_queue_t T) :=
  if size_check w size then
    some ⟨size, size_t_sub w size 1, seed mem size, 0, 0⟩
  else none

/-- The loop of `enqueue`, entered with the local variable `head_seq`. -/
def enqueue_loop (w : Nat) :
    Nat → mpmc_bounded_queue_t T → Nat → T → Except Fault (Bool × mpmc_bounded_queue_t T)
  | 0, _, _, _ => .error .out_of_fuel
  | fuel + 1, q, head_seq, data =>
    match q._buffer[head_seq &&& q._mask]? with
    | none => .error .out_of_bounds
    | some node =>
      let dif := intptr_diff w node.seq head_seq
      if dif = 0 then
        if q._head_seq = head_seq then
          .ok (true,
            ⟨q._size, q._mask,
              q._buffer.set (head_seq &&& q._mask) ⟨data, to_size_t w (head_seq + 1)⟩,
              to_size_t w (head_seq + 1), q._tail_seq⟩)
        else enqueue_loop w fuel q q._head_seq data
      else if dif < 0 then .ok (false, q)
      else enqueue_loop w fuel q q._head_seq data

/-- The method `bool enqueue(const T& data)`. -/
def enqueue (w : Nat) (fuel : Nat) (q : mpmc_bounded_queue_t T) (data : T) :
    Except Fault (Bool × mpmc_bounded_queue_t T) :=
  enqueue_loop w fuel q q._head_seq data

/-- The loop of `dequeue`, entered with the local variable `tail_seq`; `data` is the
caller's variable, returned with the result. -/
def dequeue_loop (w : Nat) :
    Nat → mpmc_bounded_queue_t T → Nat → T → Except Fault (Bool × T × mpmc_bounded_queue_t T)
  | 0, _, _, _ => .error .out_of_fuel
  | fuel + 1, q, tail_seq, data =>
    match q._buffer[tail_seq &&& q._mask]? with
    | none => .error .out_of_bounds
    | some node =>
      let dif := intptr_diff w node.seq (to_size_t w (tail_seq + 1))
      if dif = 0 then
        if q._tail_seq = tail_seq then
          .ok (true, node.data,
            ⟨q._size, q._mask,
              q._buffer.set (tail_seq &&& q._mask)
                ⟨node.data, to_size_t w (tail_seq + q._mask + 1)⟩,
              q._head_seq, to_size_t w (tail_seq + 1)⟩)
        else dequeue_loop w fuel q q._tail_seq data
      else if dif < 0 then .ok (false, data, q)
      else dequeue_loop w fuel q q._tail_seq data

/-- The method `bool dequeue(T& data)`. -/
def dequeue (w : Nat) (fuel : Nat) (q : mpmc_bounded_queue_t T) (data : T) :
    Except Fault (Bool × T × mpmc_bounded_queue_t T) :=
  dequeue_loop w fuel q q._tail_seq data

/-- The method `bool empty() const`. -/
def empty (q : mpmc_bounded_queue_t T) : Bool :=
  q._tail_seq == q._head_seq

/-- The method `int size() const`: the `size_t` value of the branch taken, converted to
`int`. -/
def size (w iw : Nat) (q : mpmc_bounded_queue_t T) : Int :=
  if q._head_seq ≥ q._tail_seq then
    wrap_signed iw ((size_t_sub w q._head_seq q._tail_seq : Nat) : Int)
  else
    wrap_signed iw ((to_size_t w (size_t_sub w q._size q._tail_seq + q._head_seq) : Nat) : Int)

end mpmc_bounded_queue_t

/-- The conversion of an `int` value to `std::size_t`: reduction modulo `2 ^ w`. -/
def int_to_size_t (w : Nat) (i : Int) : Nat := (i % ((2 ^ w : Nat) : Int)).toNat

namespace mpmc_bounded_queue_t

variable {T : Type}

/-- The value `dif` that `enqueue` computes in a loop iteration entered with the local
`head_seq` equal to `_head_seq`: `(intptr_t) node_seq - (intptr_t) head_seq`. -/
def enqueue_dif (w : Nat) (q : mpmc_bounded_queue_t T) : Option Int :=
  (q._buffer[q._head_seq &&& q._mask]?).map fun node => intptr_diff w node.seq q._head_seq

/-- The value `dif` that `dequeue` computes in a loop iteration entered with the local
`tail_seq` equal to `_tail_seq`: `(intptr_t) node_seq - (intptr_t)(tail_seq + 1)`. -/
def dequeue_dif (w : Nat) (q : mpmc_bounded_queue_t T) : Option Int :=
  (q._buffer[q._tail_seq &&& q._mask]?).map fun node =>
    intptr_diff w node.seq (to_size_t w (q._tail_seq + 1))

/-- The method `void push_front(T& data)`: calls `enqueue` and drops what it returns. -/
def push_front (w fuel : Nat) (q : mpmc_bounded_queue_t T) (data : T) :
    Except Fault (mpmc_bounded_queue_t T) :=
  match q.enqueue w fuel data with
  | .error e => .error e
  | .ok (_, q') => .ok q'

/-- The method `void push_back(T& data)`: calls `enqueue` and drops what it returns. -/
def push_back (w fuel : Nat) (q : mpmc_bounded_queue_t T) (data : T) :
    Except Fault (mpmc_bounded_queue_t T) :=
  match q.enqueue w fuel data with
  | .error e => .error e
  | .ok (_, q') => .ok q'

end mpmc_bounded_queue_t

/-- The class `mpmc_bounded_queue_iter_t`. Its constructor assigns `myQueue` and `myOffset`
only; `mySize` and `myIncrement` are never assigned and `operator*` does not read them. The
reference `myQueue` is the queue handed to `operator_star`. -/
structure mpmc_bounded_queue_iter_t where
  myOffset : Nat
  deriving DecidableEq, Repr

namespace mpmc_bounded_queue_iter_t

/-- The constructor `mpmc_bounded_queue_iter_t(queue, int size)`: `myOffset(size)` converts
the `int` to `size_t`. -/
def ctor (w : Nat) (size : Int) : mpmc_bounded_queue_iter_t :=
  ⟨int_to_size_t w size⟩

/-- The method `T & operator*()`: `myQueue._buffer[myOffset].data`. -/
def operator_star {T : Type} (q : mpmc_bounded_queue_t T) (i : mpmc_bounded_queue_iter_t) :
    Except Fault T :=
  match q._buffer[i.myOffset]? with
  | none => .error .out_of_bounds
  | some node => .ok node.data

end mpmc_bounded_queue_iter_t

namespace mpmc_bounded_queue_t

variable {T : Type}

/-- The method `iterator begin() const`: `iterator(*this, _tail_seq)`, where the cursor is
converted to the `int` parameter of the iterator's constructor. -/
def begin (w iw : Nat) (q : mpmc_bounded_queue_t T) : mpmc_bounded_queue_iter_t :=
  mpmc_bounded_queue_iter_t.ctor w (wrap_signed iw ((q._tail_seq : Nat) : Int))

end mpmc_bounded_queue_t

/-- One call made by the single thread that uses the queue. For `dequeue` the argument is
what the caller's variable holds before the call. -/
inductive call (T : Type) where
  | enqueue (data : T)
  | dequeue (data : T)
  deriving DecidableEq, Repr

/-- Performs one call: the value returned, the caller's variable after the call, and the
queue after the call. -/
def perform {T : Type} (w fuel : Nat) (q : mpmc_bounded_queue_t T) :
    call T → Except Fault (Bool × T × mpmc_bounded_queue_t T)
  | .enqueue data =>
    match q.enqueue w fuel data with
    | .error e => .error e
    | .ok (r, q') => .ok (r, data, q')
  | .dequeue data => q.dequeue w fuel data

/-- Performs a sequence of calls one after the other, collecting what each returned. -/
def run {T : Type} (w fuel : Nat) :
    mpmc_bounded_queue_t T → List (call T) →
      Except Fault (List (Bool × T) × mpmc_bounded_queue_t T)
  | q, [] => .ok ([], q)
  | q, c :: cs =>
    match perform w fuel q c with
    | .error e => .error e
    | .ok (r, d, q') =>
      match run w fuel q' cs with
      | .error e => .error e
      | .ok (rs, q'') => .ok ((r, d) :: rs, q'')

open mpmc_bounded_queue_t

variable {T : Type}

/-- The bounded first-in first-out list of the specification: one call on a list of at
most `N` waiting values. -/
def fifo_perform (N : Nat) (l : List T) : call T → Bool × T × List T
  | .enqueue v => if l.length < N then (true, v, l ++ [v]) else (false, v, l)
  | .dequeue out =>
    match l with
    | [] => (false, out, [])
    | x :: xs => (true, x, xs)

/-- The bounded first-in first-out list of the specification: a sequence of calls. -/
def fifo_run (N : Nat) : List T → List (call T) → List (Bool × T) × List T
  | l, [] => ([], l)
  | l, c :: cs =>
    let p := fifo_perform N l c
    let rest := fifo_run N p.2.2 cs
    ((p.1, p.2.1) :: rest.1, rest.2)

/-- Whether a call is an `enqueue`. -/
def call.is_enqueue : call T → Bool
  | .enqueue _ => true
  | .dequeue _ => false

/-- Whether a call is a `dequeue`. -/
def call.is_dequeue : call T → Bool
  | .enqueue _ => false
  | .dequeue _ => true

/-- How many of the calls selected by `p` returned `true`. -/
def successes (p : call T → Bool) : List (call T) → List (Bool × T) → Nat
  | c :: cs, r :: rs => (if p c && r.1 then 1 else 0) + successes p cs rs
  | _, _ => 0

/-- The calls `dequeue(o); enqueue(v)` made `n` times over. -/
def churn (v o : T) : Nat → List (call T)
  | 0 => []
  | n + 1 => call.dequeue o :: call.enqueue v :: churn v o n

/-- What the calls of `churn` return on a queue that holds `v` alone. -/
def churn_results (v : T) : Nat → List (Bool × T)
  | 0 => []
  | n + 1 => (true, v) :: (true, v) :: churn_results v n

/-- The states a single thread can bring a queue of the given size to. -/
def Reachable (w size : Nat) (q : mpmc_bounded_queue_t T) : Prop :=
  ∃ (mem : Nat → T) (q0 : mpmc_bounded_queue_t T) (fuel : Nat) (cs : List (call T))
    (rs : List (Bool × T)), ctor w size mem = some q0 ∧ run w fuel q0 cs = .ok (rs, q)

/-- The sequence number held by slot `i` of the buffer, when there is such a slot. -/
def seq_at (q : mpmc_bounded_queue_t T) (i : Nat) : Option Nat :=
  (q._buffer[i]?).map node_t.seq

/-- The slot-sequence invariant read over unbounded cursor values: `tail ≤ head ≤ tail + N`,
every position from `tail` up to `head` has its slot published, every position from `head`
up to `tail + N` has its slot free. -/
def plain_slot_invariant (N : Nat) (q : mpmc_bounded_queue_t T) : Prop :=
  q._tail_seq ≤ q._head_seq ∧ q._head_seq ≤ q._tail_seq + N ∧
  (∀ p, q._tail_seq ≤ p → p < q._head_seq → seq_at q (p &&& q._mask) = some (p + 1)) ∧
  (∀ p, q._head_seq ≤ p → p < q._tail_seq + N → seq_at q (p &&& q._mask) = some p)

instance (N : Nat) (q : mpmc_bounded_queue_t T) : Decidable (plain_slot_invariant N q) := by
  unfold plain_slot_invariant
  infer_instance

/-- The slot-sequence invariant with every cursor and sequence value taken as a `w`-bit
word: the occupancy is `_head_seq - _tail_seq`, positions are offsets from `_tail_seq`. -/
def slot_invariant (w N : Nat) (q : mpmc_bounded_queue_t T) : Prop :=
  size_t_sub w q._head_seq q._tail_seq ≤ N ∧
  (∀ j, j < size_t_sub w q._head_seq q._tail_seq →
    seq_at q (to_size_t w (q._tail_seq + j) &&& q._mask)
      = some (to_size_t w (q._tail_seq + j + 1))) ∧
  (∀ j, size_t_sub w q._head_seq q._tail_seq ≤ j → j < N →
    seq_at q (to_size_t w (q._tail_seq + j) &&& q._mask)
      = some (to_size_t w (q._tail_seq + j)))

instance (w N : Nat) (q : mpmc_bounded_queue_t T) : Decidable (slot_invariant w N q) := by
  unfold slot_invariant
  infer_instance

/-- The relation between a queue of `2 ^ k` slots and what it holds: `t` counts the values
taken out so far, `l` lists the values waiting, oldest first. The slot of the `j`-th waiting
value carries that value and the sequence number `t + j + 1`; every other slot carries the
sequence number of the position at which a producer will claim it. -/
def Holds {T : Type} (w k : Nat) (q : mpmc_bounded_queue_t T) (t : Nat) (l : List T) : Prop :=
  q._size = 2 ^ k ∧ q._mask = 2 ^ k - 1 ∧ q._buffer.length = 2 ^ k ∧
  q._tail_seq = t % 2 ^ w ∧ q._head_seq = (t + l.length) % 2 ^ w ∧ l.length ≤ 2 ^ k ∧
  (∀ j x, l[j]? = some x → q._buffer[(t + j) % 2 ^ k]? = some ⟨x, (t + j + 1) % 2 ^ w⟩) ∧
  (∀ j, l.length ≤ j → j < 2 ^ k → ∃ d, q._buffer[(t + j) % 2 ^ k]? = some ⟨d, (t + j) % 2 ^ w⟩)

/-- The states of a queue of one slot in which `n` calls of `enqueue` and `m` calls of
`dequeue` have returned `true`: the slot carries the head cursor as its sequence number. -/
def OneSlot (w : Nat) (q : mpmc_bounded_queue_t T) (n m : Nat) : Prop :=
  q._mask = 0 ∧ (∃ d, q._buffer = [⟨d, n % 2 ^ w⟩]) ∧ q._head_seq = n % 2 ^ w ∧
  q._tail_seq = m % 2 ^ w ∧ m ≤ n

/-! ## Word arithmetic -/

theorem size_t_sub_add_left (w x m : Nat) :
    size_t_sub w ((x + m) % 2 ^ w) (x % 2 ^ w) = m % 2 ^ w := by
  unfold size_t_sub
  have hP : 0 < 2 ^ w := Nat.two_pow_pos w
  have hx : x % 2 ^ w < 2 ^ w := Nat.mod_lt _ hP
  simp only [Nat.mod_mod]
  have h : ((x + m) % 2 ^ w + 2 ^ w - x % 2 ^ w) + x % 2 ^ w ≡ m + x % 2 ^ w [MOD 2 ^ w] := by
    have e : ((x + m) % 2 ^ w + 2 ^ w - x % 2 ^ w) + x % 2 ^ w = (x + m) % 2 ^ w + 2 ^ w := by
      omega
    rw [e]
    calc (x + m) % 2 ^ w + 2 ^ w ≡ (x + m) % 2 ^ w [MOD 2 ^ w] := by
          simp [Nat.ModEq]
      _ ≡ x + m [MOD 2 ^ w] := Nat.mod_modEq _ _
      _ ≡ m + x % 2 ^ w [MOD 2 ^ w] := by
          rw [Nat.add_comm]
          exact Nat.ModEq.add_left _ (Nat.mod_modEq _ _).symm
  exact Nat.ModEq.add_right_cancel' _ h

theorem size_t_sub_add_right (w x m : Nat) :
    size_t_sub w (x % 2 ^ w) ((x + m) % 2 ^ w) = (2 ^ w - m % 2 ^ w) % 2 ^ w := by
  unfold size_t_sub
  have hP : 0 < 2 ^ w := Nat.two_pow_pos w
  have hm : m % 2 ^ w < 2 ^ w := Nat.mod_lt _ hP
  have hxm : (x + m) % 2 ^ w < 2 ^ w := Nat.mod_lt _ hP
  simp only [Nat.mod_mod]
  have h : (x % 2 ^ w + 2 ^ w - (x + m) % 2 ^ w) + (x + m) % 2 ^ w
      ≡ (2 ^ w - m % 2 ^ w) + (x + m) % 2 ^ w [MOD 2 ^ w] := by
    have e : (x % 2 ^ w + 2 ^ w - (x + m) % 2 ^ w) + (x + m) % 2 ^ w = x % 2 ^ w + 2 ^ w := by
      omega
    rw [e]
    calc x % 2 ^ w + 2 ^ w ≡ x % 2 ^ w [MOD 2 ^ w] := by simp [Nat.ModEq]
      _ ≡ x [MOD 2 ^ w] := Nat.mod_modEq _ _
      _ ≡ (2 ^ w - m % 2 ^ w) + (m % 2 ^ w + x) [MOD 2 ^ w] := by
          have e2 : (2 ^ w - m % 2 ^ w) + (m % 2 ^ w + x) = x + 2 ^ w := by omega
          rw [e2]; simp [Nat.ModEq]
      _ ≡ (2 ^ w - m % 2 ^ w) + (x + m) % 2 ^ w [MOD 2 ^ w] := by
          apply Nat.ModEq.add_left
          calc m % 2 ^ w + x ≡ m + x [MOD 2 ^ w] := Nat.ModEq.add_right _ (Nat.mod_modEq _ _)
            _ ≡ (x + m) % 2 ^ w [MOD 2 ^ w] := by
              rw [Nat.add_comm]; exact (Nat.mod_modEq _ _).symm
  exact Nat.ModEq.add_right_cancel' _ h

theorem size_t_sub_lt (w a b : Nat) : size_t_sub w a b < 2 ^ w :=
  Nat.mod_lt _ (Nat.two_pow_pos w)

theorem two_pow_pred_double {w : Nat} (hw : 0 < w) : 2 ^ w = 2 * 2 ^ (w - 1) := by
  obtain ⟨v, rfl⟩ : ∃ v, w = v + 1 := ⟨w - 1, by omega⟩
  simp [pow_succ, Nat.mul_comm]

theorem wrap_signed_of_lt (b : Nat) (d : Nat) (hd : d < 2 ^ b) :
    wrap_signed b (d : Int) = if d < 2 ^ (b - 1) then (d : Int) else (d : Int) - ((2 ^ b : Nat) : Int) := by
  unfold wrap_signed
  have e : (d : Int) % ((2 ^ b : Nat) : Int) = (d : Int) := by
    rw [← Int.natCast_mod, Nat.mod_eq_of_lt hd]
  rw [e]
  simp only [Nat.cast_lt]

theorem wrap_signed_add_mul (b : Nat) (i k : Int) :
    wrap_signed b (i + ((2 ^ b : Nat) : Int) * k) = wrap_signed b i := by
  unfold wrap_signed
  rw [Int.add_mul_emod_self_left]

theorem intptr_diff_eq (w a b : Nat) :
    intptr_diff w a b = wrap_signed w ((size_t_sub w a b : Nat) : Int) := by
  unfold intptr_diff to_intptr_t size_t_sub
  have hP : 0 < 2 ^ w := Nat.two_pow_pos w
  have ha : a % 2 ^ w < 2 ^ w := Nat.mod_lt _ hP
  have hb : b % 2 ^ w < 2 ^ w := Nat.mod_lt _ hP
  generalize a % 2 ^ w = a' at *
  generalize b % 2 ^ w = b' at *
  have key : ∀ i : Int, ∀ k : Int, i = ((a' : Int) - b') + ((2 ^ w : Nat) : Int) * k →
      wrap_signed w i = wrap_signed w (((a' + 2 ^ w - b') % 2 ^ w : Nat) : Int) := by
    intro i k hi
    rw [hi, wrap_signed_add_mul]
    by_cases hab : b' ≤ a'
    · have e : (a' + 2 ^ w - b') % 2 ^ w = a' - b' := by
        have : a' + 2 ^ w - b' = (a' - b') + 2 ^ w := by omega
        rw [this, Nat.add_mod_right, Nat.mod_eq_of_lt (by omega)]
      rw [e]
      congr 1
      omega
    · have e : (a' + 2 ^ w - b') % 2 ^ w = a' + 2 ^ w - b' := Nat.mod_eq_of_lt (by omega)
      rw [e]
      have : (((a' + 2 ^ w - b' : Nat)) : Int) = ((a' : Int) - b') + ((2 ^ w : Nat) : Int) * 1 := by
        omega
      rw [this, wrap_signed_add_mul]
  split_ifs
  · exact key _ 0 (by ring)
  · exact key _ 1 (by ring)
  · exact key _ (-1) (by ring)
  · exact key _ 0 (by ring)

theorem land_double (a b : Nat) : (2 * a) &&& (2 * b) = 2 * (a &&& b) := by
  have := Nat.land_bit false a false b
  simpa [Nat.bit_val] using this

theorem land_double_succ (a b : Nat) : (2 * a + 1) &&& (2 * b + 1) = 2 * (a &&& b) + 1 := by
  have := Nat.land_bit true a true b
  simpa [Nat.bit_val] using this

theorem land_double_succ_left (a b : Nat) : (2 * a + 1) &&& (2 * b) = 2 * (a &&& b) := by
  have := Nat.land_bit true a false b
  simpa [Nat.bit_val] using this

theorem land_double_succ_right (a b : Nat) : (2 * a) &&& (2 * b + 1) = 2 * (a &&& b) := by
  have := Nat.land_bit false a true b
  simpa [Nat.bit_val] using this

theorem land_complement (w : Nat) : ∀ y, y < 2 ^ w → y &&& (2 ^ w - 1 - y) = 0 := by
  induction w with
  | zero => intro y hy; simp at hy; subst hy; simp
  | succ w ih =>
    intro y hy
    have hP : 2 ^ (w + 1) = 2 * 2 ^ w := by rw [pow_succ, Nat.mul_comm]
    rcases Nat.even_or_odd' y with ⟨z, rfl | rfl⟩
    · have e : 2 ^ (w + 1) - 1 - 2 * z = 2 * (2 ^ w - 1 - z) + 1 := by omega
      rw [e, land_double_succ_right, ih z (by omega)]
    · have e : 2 ^ (w + 1) - 1 - (2 * z + 1) = 2 * (2 ^ w - 1 - z) := by omega
      rw [e, land_double_succ_left, ih z (by omega)]

theorem land_negation (w : Nat) :
    ∀ x, 0 < x → x < 2 ^ w → (x &&& (2 ^ w - x) = x ↔ ∃ k, k < w ∧ x = 2 ^ k) := by
  induction w with
  | zero => intro x h0 hx; simp at hx; omega
  | succ w ih =>
    intro x h0 hx
    have hP : 2 ^ (w + 1) = 2 * 2 ^ w := by rw [pow_succ, Nat.mul_comm]
    rcases Nat.even_or_odd' x with ⟨z, rfl | rfl⟩
    · have e : 2 ^ (w + 1) - 2 * z = 2 * (2 ^ w - z) := by omega
      rw [e, land_double]
      have hz := ih z (by omega) (by omega)
      constructor
      · intro h
        obtain ⟨k, hk, rfl⟩ := hz.mp (by omega)
        exact ⟨k + 1, by omega, by rw [pow_succ, Nat.mul_comm]⟩
      · rintro ⟨k, hk, hzk⟩
        cases k with
        | zero => simp at hzk
        | succ k =>
          have : z = 2 ^ k := by rw [pow_succ] at hzk; omega
          have := hz.mpr ⟨k, by omega, this⟩
          omega
    · have e : 2 ^ (w + 1) - (2 * z + 1) = 2 * (2 ^ w - 1 - z) + 1 := by omega
      rw [e, land_double_succ, land_complement w z (by omega)]
      constructor
      · intro h
        exact ⟨0, by omega, by simp; omega⟩
      · rintro ⟨k, hk, hzk⟩
        cases k with
        | zero => simp at hzk; omega
        | succ k => rw [pow_succ] at hzk; omega

theorem size_check_iff (w size : Nat) (hsize : size < 2 ^ w) :
    size_check w size = true ↔ ∃ k, k < w ∧ size = 2 ^ k := by
  unfold size_check bit_not to_size_t
  rw [Nat.mod_eq_of_lt hsize]
  by_cases h0 : size = 0
  · subst h0
    simp only [bne_self_eq_false, Bool.false_and, Bool.false_eq_true, false_iff]
    rintro ⟨k, _, hk⟩
    have := Nat.two_pow_pos k
    omega
  · have e : (2 ^ w - 1 - size + 1) % 2 ^ w = 2 ^ w - size := by
      rw [Nat.mod_eq_of_lt (by omega)]; omega
    rw [e]
    simp only [bne_iff_ne, ne_eq, h0, not_false_eq_true, Bool.and_eq_true,
      beq_iff_eq, true_and, decide_eq_true_eq]
    exact land_negation w size (by omega) hsize

/-! ## One call on a queue that satisfies `Holds` -/

theorem intptr_diff_eq_zero_iff (w a b : Nat) :
    intptr_diff w a b = 0 ↔ size_t_sub w a b = 0 := by
  rw [intptr_diff_eq, wrap_signed_of_lt _ _ (size_t_sub_lt w a b)]
  have := size_t_sub_lt w a b
  have := Nat.two_pow_pos (w - 1)
  split_ifs <;> omega

theorem intptr_diff_neg_iff (w a b : Nat) :
    intptr_diff w a b < 0 ↔ 2 ^ (w - 1) ≤ size_t_sub w a b := by
  rw [intptr_diff_eq, wrap_signed_of_lt _ _ (size_t_sub_lt w a b)]
  have := size_t_sub_lt w a b
  have := Nat.two_pow_pos (w - 1)
  split_ifs <;> omega

theorem intptr_diff_pos_iff (w a b : Nat) :
    0 < intptr_diff w a b ↔ 0 < size_t_sub w a b ∧ size_t_sub w a b < 2 ^ (w - 1) := by
  rw [intptr_diff_eq, wrap_signed_of_lt _ _ (size_t_sub_lt w a b)]
  have := size_t_sub_lt w a b
  have := Nat.two_pow_pos (w - 1)
  split_ifs <;> omega

theorem index_eq_mod {w k : Nat} (hk : k ≤ w) (x : Nat) :
    (x % 2 ^ w) &&& (2 ^ k - 1) = x % 2 ^ k := by
  rw [Nat.and_pow_two_sub_one_eq_mod, Nat.mod_mod_of_dvd _ (pow_dvd_pow 2 hk)]

theorem slot_index_inj {n t i j : Nat} (hi : i < n) (hj : j < n)
    (h : (t + i) % n = (t + j) % n) : i = j := by
  have h1 : i ≡ j [MOD n] := Nat.ModEq.add_left_cancel' t h
  have h2 : i % n = j % n := h1
  rwa [Nat.mod_eq_of_lt hi, Nat.mod_eq_of_lt hj] at h2

theorem enqueue_of_room {w k : Nat} (hk : k < w) {q : mpmc_bounded_queue_t T} {t : Nat}
    {l : List T} (h : Holds w k q t l) (hl : l.length < 2 ^ k) (fuel : Nat) (v : T) :
    ∃ q', q.enqueue w (fuel + 1) v = .ok (true, q') ∧ Holds w k q' t (l ++ [v]) := by
  obtain ⟨hsize, hmask, hlen, htail, hhead, hle, hfull, hfree⟩ := h
  obtain ⟨d, hd⟩ := hfree l.length (Nat.le_refl _) hl
  have hidx : q._head_seq &&& q._mask = (t + l.length) % 2 ^ k := by
    rw [hhead, hmask, index_eq_mod (Nat.le_of_lt hk)]
  have hdif : intptr_diff w ((t + l.length) % 2 ^ w) q._head_seq = 0 := by
    rw [intptr_diff_eq_zero_iff, hhead]
    have := size_t_sub_add_left w (t + l.length) 0
    simpa using this
  refine ⟨⟨q._size, q._mask,
    q._buffer.set (q._head_seq &&& q._mask) ⟨v, to_size_t w (q._head_seq + 1)⟩,
    to_size_t w (q._head_seq + 1), q._tail_seq⟩, ?_, ?_⟩
  · simp only [enqueue, enqueue_loop, hidx, hd, hdif, if_true]
  · have hN : 0 < 2 ^ k := Nat.two_pow_pos k
    have hlt : (t + l.length) % 2 ^ k < q._buffer.length := by
      rw [hlen]; exact Nat.mod_lt _ hN
    refine ⟨hsize, hmask, by simp [hlen], htail, ?_, ?_, ?_, ?_⟩
    · simp only [to_size_t, hhead, List.length_append, List.length_singleton,
        Nat.mod_add_mod, Nat.add_assoc]
    · simp only [List.length_append, List.length_singleton]; omega
    · intro j x hj
      simp only [hidx]
      rw [List.getElem?_set]
      by_cases hjl : j < l.length
      · have hne : (t + l.length) % 2 ^ k ≠ (t + j) % 2 ^ k := by
          intro e
          have := slot_index_inj hl (by omega) e
          omega
        rw [if_neg hne]
        rw [List.getElem?_append_left hjl] at hj
        exact hfull j x hj
      · have hjl2 : j = l.length := by
          by_contra hc
          have : l.length + 1 ≤ j := by omega
          rw [List.getElem?_eq_none (by simp; omega)] at hj
          exact absurd hj (by simp)
        subst hjl2
        rw [List.getElem?_append_right (Nat.le_refl _)] at hj
        simp at hj
        subst hj
        rw [if_pos rfl, if_pos hlt]
        simp only [to_size_t, hhead, Nat.mod_add_mod]
    · intro j hj1 hj2
      simp only [List.length_append, List.length_singleton] at hj1
      simp only [hidx]
      rw [List.getElem?_set]
      have hne : (t + l.length) % 2 ^ k ≠ (t + j) % 2 ^ k := by
        intro e
        have := slot_index_inj hl hj2 e
        omega
      rw [if_neg hne]
      exact hfree j (by omega) hj2

theorem enqueue_of_full {w k : Nat} (hk : k < w) (hk1 : 0 < k) {q : mpmc_bounded_queue_t T}
    {t : Nat} {l : List T} (h : Holds w k q t l) (hl : l.length = 2 ^ k) (fuel : Nat) (v : T) :
    q.enqueue w (fuel + 1) v = .ok (false, q) := by
  obtain ⟨hsize, hmask, hlen, htail, hhead, hle, hfull, hfree⟩ := h
  have hN : 0 < 2 ^ k := Nat.two_pow_pos k
  have h0 : 0 < l.length := by omega
  have hd := hfull 0 l[0] (by simp [List.getElem?_eq_getElem h0])
  have hidx : q._head_seq &&& q._mask = (t + 0) % 2 ^ k := by
    rw [hhead, hmask, index_eq_mod (Nat.le_of_lt hk), hl]
    simp
  have hlt1 : 2 ^ 1 ≤ 2 ^ k := Nat.pow_le_pow_right (by decide) hk1
  have hlt2 : 2 ^ k ≤ 2 ^ (w - 1) := Nat.pow_le_pow_right (by decide) (by omega)
  have hP := two_pow_pred_double (show 0 < w by omega)
  have hsub : size_t_sub w ((t + 0 + 1) % 2 ^ w) q._head_seq = 2 ^ w - (2 ^ k - 1) := by
    have e : q._head_seq = ((t + 0 + 1) + (2 ^ k - 1)) % 2 ^ w := by
      rw [hhead, hl]; congr 1; omega
    rw [e, size_t_sub_add_right, Nat.mod_eq_of_lt (show 2 ^ k - 1 < 2 ^ w by omega),
      Nat.mod_eq_of_lt (by omega)]
  have hdif : intptr_diff w ((t + 0 + 1) % 2 ^ w) q._head_seq < 0 := by
    rw [intptr_diff_neg_iff, hsub]; omega
  have hdif0 : ¬ intptr_diff w ((t + 0 + 1) % 2 ^ w) q._head_seq = 0 := by omega
  simp only [enqueue, enqueue_loop, hidx, hd, hdif, hdif0, if_true, if_false]

theorem dequeue_of_cons {w k : Nat} (hk : k < w) {q : mpmc_bounded_queue_t T} {t : Nat}
    {x : T} {l : List T} (h : Holds w k q t (x :: l)) (fuel : Nat) (out : T) :
    ∃ q', q.dequeue w (fuel + 1) out = .ok (true, x, q') ∧ Holds w k q' (t + 1) l := by
  obtain ⟨hsize, hmask, hlen, htail, hhead, hle, hfull, hfree⟩ := h
  have hN : 0 < 2 ^ k := Nat.two_pow_pos k
  have hd := hfull 0 x (by simp)
  have hidx : q._tail_seq &&& q._mask = (t + 0) % 2 ^ k := by
    rw [htail, hmask, index_eq_mod (Nat.le_of_lt hk)]; simp
  have hdif : intptr_diff w ((t + 0 + 1) % 2 ^ w) (to_size_t w (q._tail_seq + 1)) = 0 := by
    rw [intptr_diff_eq_zero_iff, htail, to_size_t, Nat.mod_add_mod]
    have := size_t_sub_add_left w (t + 1) 0
    simpa using this
  refine ⟨⟨q._size, q._mask,
    q._buffer.set (q._tail_seq &&& q._mask) ⟨x, to_size_t w (q._tail_seq + q._mask + 1)⟩,
    q._head_seq, to_size_t w (q._tail_seq + 1)⟩, ?_, ?_⟩
  · simp only [dequeue, dequeue_loop, hidx, hd, hdif, if_true]
  · have hlt : (t + 0) % 2 ^ k < q._buffer.length := by
      rw [hlen]; exact Nat.mod_lt _ hN
    simp only [List.length_cons] at hhead hle
    refine ⟨hsize, hmask, by simp [hlen], ?_, ?_, by omega, ?_, ?_⟩
    · simp only [to_size_t, htail, Nat.mod_add_mod]
    · simp only [hhead]; congr 1; omega
    · intro j y hj
      simp only [hidx]
      rw [List.getElem?_set]
      have hjl : j < l.length := by
        by_contra hc
        rw [List.getElem?_eq_none (by omega)] at hj
        exact absurd hj (by simp)
      have hne : (t + 0) % 2 ^ k ≠ (t + 1 + j) % 2 ^ k := by
        intro e
        have e2 : (t + 0) % 2 ^ k = (t + (j + 1)) % 2 ^ k := by
          rw [e]; congr 1; omega
        have := slot_index_inj hN (by omega) e2
        omega
      rw [if_neg hne]
      have := hfull (j + 1) y (by simpa using hj)
      have e3 : t + (j + 1) = t + 1 + j := by omega
      rw [e3] at this
      exact this
    · intro j hj1 hj2
      simp only [hidx]
      rw [List.getElem?_set]
      by_cases hjN : j + 1 < 2 ^ k
      · have hne : (t + 0) % 2 ^ k ≠ (t + 1 + j) % 2 ^ k := by
          intro e
          have e2 : (t + 0) % 2 ^ k = (t + (j + 1)) % 2 ^ k := by
            rw [e]; congr 1; omega
          have := slot_index_inj hN hjN e2
          omega
        rw [if_neg hne]
        have := hfree (j + 1) (by simp; omega) hjN
        have e3 : t + (j + 1) = t + 1 + j := by omega
        rw [e3] at this
        exact this
      · have hj3 : j = 2 ^ k - 1 := by omega
        have e : (t + 1 + j) % 2 ^ k = (t + 0) % 2 ^ k := by
          have : t + 1 + j = t + 0 + 2 ^ k := by omega
          rw [this, Nat.add_mod_right]
        rw [e, if_pos rfl, if_pos hlt]
        refine ⟨x, ?_⟩
        congr 2
        simp only [to_size_t, htail, hmask]
        rw [Nat.add_assoc, Nat.mod_add_mod]
        congr 1; omega

theorem dequeue_of_nil {w k : Nat} (hk : k < w) {q : mpmc_bounded_queue_t T} {t : Nat}
    (h : Holds w k q t []) (fuel : Nat) (out : T) :
    q.dequeue w (fuel + 1) out = .ok (false, out, q) := by
  obtain ⟨hsize, hmask, hlen, htail, hhead, hle, hfull, hfree⟩ := h
  have hN : 0 < 2 ^ k := Nat.two_pow_pos k
  obtain ⟨d, hd⟩ := hfree 0 (by simp) hN
  have hidx : q._tail_seq &&& q._mask = (t + 0) % 2 ^ k := by
    rw [htail, hmask, index_eq_mod (Nat.le_of_lt hk)]; simp
  have hP := two_pow_pred_double (show 0 < w by omega)
  have hH : 0 < 2 ^ (w - 1) := Nat.two_pow_pos _
  have hsub : size_t_sub w ((t + 0) % 2 ^ w) (to_size_t w (q._tail_seq + 1)) = 2 ^ w - 1 := by
    rw [htail, to_size_t, Nat.mod_add_mod]
    have e : (t + 1) % 2 ^ w = (t + 0 + 1) % 2 ^ w := by simp
    rw [e, size_t_sub_add_right]
    have h1 : 1 % 2 ^ w = 1 := Nat.mod_eq_of_lt (by omega)
    rw [h1, Nat.mod_eq_of_lt (by omega)]
  have hdif : intptr_diff w ((t + 0) % 2 ^ w) (to_size_t w (q._tail_seq + 1)) < 0 := by
    rw [intptr_diff_neg_iff, hsub]; omega
  have hdif0 : ¬ intptr_diff w ((t + 0) % 2 ^ w) (to_size_t w (q._tail_seq + 1)) = 0 := by
    omega
  simp only [dequeue, dequeue_loop, hidx, hd, hdif, hdif0, if_true, if_false]

theorem size_t_sub_pow_one {w k : Nat} (hk : k < w) : size_t_sub w (2 ^ k) 1 = 2 ^ k - 1 := by
  unfold size_t_sub
  have hP := two_pow_pred_double (show 0 < w by omega)
  have hH : 0 < 2 ^ (w - 1) := Nat.two_pow_pos _
  have hN : 0 < 2 ^ k := Nat.two_pow_pos _
  have hlt : 2 ^ k < 2 ^ w := Nat.pow_lt_pow_right (by decide) hk
  rw [Nat.mod_eq_of_lt hlt, Nat.mod_eq_of_lt (show 1 < 2 ^ w by omega)]
  have e : 2 ^ k + 2 ^ w - 1 = (2 ^ k - 1) + 2 ^ w := by omega
  rw [e, Nat.add_mod_right, Nat.mod_eq_of_lt (by omega)]

theorem ctor_pow {w k : Nat} (hk : k < w) (mem : Nat → T) :
    ctor w (2 ^ k) mem = some ⟨2 ^ k, 2 ^ k - 1, seed mem (2 ^ k), 0, 0⟩ := by
  have hlt : 2 ^ k < 2 ^ w := Nat.pow_lt_pow_right (by decide) hk
  have hc : size_check w (2 ^ k) = true := (size_check_iff w _ hlt).mpr ⟨k, hk, rfl⟩
  simp only [ctor, hc, if_true, size_t_sub_pow_one hk]

theorem seed_getElem? (mem : Nat → T) (n j : Nat) (hj : j < n) :
    (seed mem n)[j]? = some ⟨mem j, j⟩ := by
  simp [seed, List.getElem?_map, List.getElem?_range hj]

theorem holds_fresh {w k : Nat} (hk : k < w) (mem : Nat → T) :
    Holds w k (⟨2 ^ k, 2 ^ k - 1, seed mem (2 ^ k), 0, 0⟩ : mpmc_bounded_queue_t T) 0 [] := by
  have hlt : 2 ^ k < 2 ^ w := Nat.pow_lt_pow_right (by decide) hk
  refine ⟨rfl, rfl, by simp [seed], by simp, by simp, by simp, ?_, ?_⟩
  · intro j x hj; simp at hj
  · intro j _ hj
    refine ⟨mem j, ?_⟩
    simp only [Nat.zero_add, Nat.mod_eq_of_lt hj, Nat.mod_eq_of_lt (Nat.lt_trans hj hlt)]
    exact seed_getElem? mem _ j hj

theorem perform_refines {w k : Nat} (hk : k < w) (hk1 : 0 < k) {q : mpmc_bounded_queue_t T}
    {t : Nat} {l : List T} (h : Holds w k q t l) (fuel : Nat) (c : call T) :
    ∃ q' t', perform w (fuel + 1) q c
        = .ok ((fifo_perform (2 ^ k) l c).1, (fifo_perform (2 ^ k) l c).2.1, q') ∧
      Holds w k q' t' (fifo_perform (2 ^ k) l c).2.2 := by
  cases c with
  | enqueue v =>
    by_cases hl : l.length < 2 ^ k
    · obtain ⟨q', he, hq'⟩ := enqueue_of_room hk h hl fuel v
      exact ⟨q', t, by simp only [perform, he, fifo_perform, hl, if_true],
        by simpa only [fifo_perform, hl, if_true] using hq'⟩
    · have hfull : l.length = 2 ^ k := by have := h.2.2.2.2.2.1; omega
      have he := enqueue_of_full hk hk1 h hfull fuel v
      exact ⟨q, t, by simp only [perform, he, fifo_perform, hl, if_false],
        by simpa only [fifo_perform, hl, if_false] using h⟩
  | dequeue out =>
    cases l with
    | nil =>
      exact ⟨q, t, by simp only [perform, dequeue_of_nil hk h fuel out, fifo_perform], h⟩
    | cons x xs =>
      obtain ⟨q', he, hq'⟩ := dequeue_of_cons hk h fuel out
      exact ⟨q', t + 1, by simp only [perform, he, fifo_perform], hq'⟩

theorem run_refines {w k : Nat} (hk : k < w) (hk1 : 0 < k) (fuel : Nat) (cs : List (call T)) :
    ∀ (q : mpmc_bounded_queue_t T) (t : Nat) (l : List T), Holds w k q t l →
      ∃ q' t', run w (fuel + 1) q cs = .ok ((fifo_run (2 ^ k) l cs).1, q') ∧
        Holds w k q' t' (fifo_run (2 ^ k) l cs).2 := by
  induction cs with
  | nil => intro q t l h; exact ⟨q, t, rfl, h⟩
  | cons c cs ih =>
    intro q t l h
    obtain ⟨q1, t1, hp, h1⟩ := perform_refines hk hk1 h fuel c
    obtain ⟨q2, t2, hr, h2⟩ := ih q1 t1 _ h1
    exact ⟨q2, t2, by simp only [run, hp, hr, fifo_run], h2⟩

theorem enqueue_loop_cursors (w : Nat) (data : T) :
    ∀ (fuel : Nat) (q : mpmc_bounded_queue_t T) (head_seq : Nat) (r : Bool)
      (q' : mpmc_bounded_queue_t T), enqueue_loop w fuel q head_seq data = .ok (r, q') →
      (r = false → q' = q) ∧ q'._tail_seq = q._tail_seq ∧
        (r = true → q'._head_seq = to_size_t w (q._head_seq + 1)) := by
  intro fuel
  induction fuel with
  | zero => intro q head_seq r q' h; simp [enqueue_loop] at h
  | succ fuel ih =>
    intro q head_seq r q' h
    unfold enqueue_loop at h
    split at h
    · simp at h
    · simp only at h
      split_ifs at h with h1 h2 h3
      · simp only [Except.ok.injEq, Prod.mk.injEq] at h
        obtain ⟨rfl, rfl⟩ := h
        simp [h2]
      · exact ih _ _ _ _ h
      · simp only [Except.ok.injEq, Prod.mk.injEq] at h
        obtain ⟨rfl, rfl⟩ := h
        simp
      · exact ih _ _ _ _ h

theorem dequeue_loop_cursors (w : Nat) (data : T) :
    ∀ (fuel : Nat) (q : mpmc_bounded_queue_t T) (tail_seq : Nat) (r : Bool) (d : T)
      (q' : mpmc_bounded_queue_t T), dequeue_loop w fuel q tail_seq data = .ok (r, d, q') →
      (r = false → q' = q ∧ d = data) ∧ q'._head_seq = q._head_seq ∧
        (r = true → q'._tail_seq = to_size_t w (q._tail_seq + 1)) := by
  intro fuel
  induction fuel with
  | zero => intro q tail_seq r d q' h; simp [dequeue_loop] at h
  | succ fuel ih =>
    intro q tail_seq r d q' h
    unfold dequeue_loop at h
    split at h
    · simp at h
    · simp only at h
      split_ifs at h with h1 h2 h3
      · simp only [Except.ok.injEq, Prod.mk.injEq] at h
        obtain ⟨rfl, rfl, rfl⟩ := h
        simp [h2]
      · exact ih _ _ _ _ _ h
      · simp only [Except.ok.injEq, Prod.mk.injEq] at h
        obtain ⟨rfl, rfl, rfl⟩ := h
        simp
      · exact ih _ _ _ _ _ h

theorem run_enqueues {w k : Nat} (hk : k < w) (fuel : Nat) (vs : List T) :
    ∀ (q : mpmc_bounded_queue_t T) (t : Nat) (l : List T), Holds w k q t l →
      l.length + vs.length ≤ 2 ^ k →
      ∃ q', run w (fuel + 1) q (vs.map call.enqueue) = .ok (vs.map (fun v => (true, v)), q') ∧
        Holds w k q' t (l ++ vs) := by
  induction vs with
  | nil => intro q t l h _; exact ⟨q, rfl, by simpa using h⟩
  | cons v vs ih =>
    intro q t l h hl
    simp only [List.length_cons] at hl
    obtain ⟨q1, he, h1⟩ := enqueue_of_room hk h (by omega) fuel v
    obtain ⟨q2, hr, h2⟩ := ih q1 t (l ++ [v]) h1 (by simp; omega)
    exact ⟨q2, by simp only [List.map_cons, run, perform, he, hr], by simpa using h2⟩

theorem run_dequeues {w k : Nat} (hk : k < w) (fuel : Nat) (out : T) (vs : List T) :
    ∀ (q : mpmc_bounded_queue_t T) (t : Nat) (l : List T), Holds w k q t (vs ++ l) →
      ∃ q', run w (fuel + 1) q (List.replicate vs.length (call.dequeue out))
          = .ok (vs.map (fun v => (true, v)), q') ∧
        Holds w k q' (t + vs.length) l := by
  induction vs with
  | nil => intro q t l h; exact ⟨q, rfl, by simpa using h⟩
  | cons v vs ih =>
    intro q t l h
    obtain ⟨q1, he, h1⟩ := dequeue_of_cons hk h fuel out
    obtain ⟨q2, hr, h2⟩ := ih q1 (t + 1) l h1
    refine ⟨q2, by simp only [List.length_cons, List.replicate_succ, List.map_cons, run,
      perform, he, hr], ?_⟩
    have e : t + (v :: vs).length = t + 1 + vs.length := by simp; omega
    rw [e]; exact h2

/-- With at least two slots, the call of `enqueue` that follows `2 ^ k` accepted ones on a
fresh queue returns `false` and leaves the queue as it is. -/
theorem enqueue_beyond_capacity (w k : Nat) (hk1 : 0 < k) (hk : k < w) (mem : Nat → T)
    (fuel : Nat) (vs : List T) (hvs : vs.length = 2 ^ k) (x : T) :
    ∃ q0 q1, ctor w (2 ^ k) mem = some q0 ∧
      run w (fuel + 1) q0 (vs.map call.enqueue) = .ok (vs.map (fun v => (true, v)), q1) ∧
      q1.enqueue w (fuel + 1) x = .ok (false, q1) := by
  obtain ⟨q1, h1, hq1⟩ := run_enqueues hk fuel vs _ 0 [] (holds_fresh hk mem) (by simp; omega)
  simp only [List.nil_append] at hq1
  exact ⟨_, q1, ctor_pow hk mem, h1, enqueue_of_full hk hk1 hq1 hvs fuel x⟩

theorem perform_cursors (w fuel : Nat) (q q' : mpmc_bounded_queue_t T) (c : call T)
    (r : Bool) (d : T) (h : perform w fuel q c = .ok (r, d, q')) :
    q'._head_seq = (if c.is_enqueue && r then to_size_t w (q._head_seq + 1) else q._head_seq) ∧
    q'._tail_seq = (if c.is_dequeue && r then to_size_t w (q._tail_seq + 1) else q._tail_seq) := by
  cases c with
  | enqueue v =>
    simp only [perform] at h
    split at h
    · simp at h
    · rename_i r1 q1 he
      simp only [Except.ok.injEq, Prod.mk.injEq] at h
      obtain ⟨rfl, rfl, rfl⟩ := h
      have := enqueue_loop_cursors w v fuel q _ _ _ he
      cases r1 with
      | false => simp [call.is_enqueue, call.is_dequeue, this.1 rfl]
      | true => simp [call.is_enqueue, call.is_dequeue, this.2.1, this.2.2 rfl]
  | dequeue o =>
    simp only [perform] at h
    have := dequeue_loop_cursors w o fuel q _ _ _ _ h
    cases r with
    | false => simp [call.is_enqueue, call.is_dequeue, (this.1 rfl).1]
    | true => simp [call.is_enqueue, call.is_dequeue, this.2.1, this.2.2 rfl]

theorem run_cursors (w fuel : Nat) (cs : List (call T)) :
    ∀ (q q' : mpmc_bounded_queue_t T) (rs : List (Bool × T)),
      run w fuel q cs = .ok (rs, q') → q._head_seq < 2 ^ w → q._tail_seq < 2 ^ w →
      q'._head_seq = (q._head_seq + successes call.is_enqueue cs rs) % 2 ^ w ∧
      q'._tail_seq = (q._tail_seq + successes call.is_dequeue cs rs) % 2 ^ w := by
  induction cs with
  | nil =>
    intro q q' rs h hh ht
    simp only [run, Except.ok.injEq, Prod.mk.injEq] at h
    obtain ⟨rfl, rfl⟩ := h
    simp [successes, Nat.mod_eq_of_lt hh, Nat.mod_eq_of_lt ht]
  | cons c cs ih =>
    intro q q' rs h hh ht
    simp only [run] at h
    split at h
    · simp at h
    · rename_i r d q1 hp
      split at h
      · simp at h
      · rename_i rs1 q2 hr
        simp only [Except.ok.injEq, Prod.mk.injEq] at h
        obtain ⟨rfl, rfl⟩ := h
        have hc := perform_cursors w fuel q q1 c r d hp
        have hP : 0 < 2 ^ w := Nat.two_pow_pos w
        have hh1 : q1._head_seq < 2 ^ w := by
          rw [hc.1]; split_ifs
          · exact Nat.mod_lt _ hP
          · exact hh
        have ht1 : q1._tail_seq < 2 ^ w := by
          rw [hc.2]; split_ifs
          · exact Nat.mod_lt _ hP
          · exact ht
        have := ih q1 q2 rs1 hr hh1 ht1
        rw [this.1, this.2, hc.1, hc.2]
        simp only [successes, to_size_t]
        constructor
        · split_ifs
          · rw [Nat.mod_add_mod]; congr 1; omega
          · simp
        · split_ifs
          · rw [Nat.mod_add_mod]; congr 1; omega
          · simp

theorem ctor_cursors {w size : Nat} {mem : Nat → T} {q0 : mpmc_bounded_queue_t T}
    (h : ctor w size mem = some q0) : q0._head_seq = 0 ∧ q0._tail_seq = 0 := by
  unfold ctor at h
  split_ifs at h
  simp only [Option.some.injEq] at h
  subst h
  exact ⟨rfl, rfl⟩

theorem perform_zero_fuel (w : Nat) (q : mpmc_bounded_queue_t T) (c : call T) :
    perform w 0 q c = .error .out_of_fuel := by
  cases c <;> simp [perform, enqueue, dequeue, enqueue_loop, dequeue_loop]

theorem holds_of_run {w k : Nat} (hk : k < w) (hk1 : 0 < k) (mem : Nat → T)
    (q0 q : mpmc_bounded_queue_t T) (fuel : Nat) (cs : List (call T)) (rs : List (Bool × T))
    (h0 : ctor w (2 ^ k) mem = some q0) (hrun : run w fuel q0 cs = .ok (rs, q)) :
    ∃ t l, Holds w k q t l := by
  rw [ctor_pow hk mem, Option.some.injEq] at h0
  subst h0
  cases fuel with
  | zero =>
    cases cs with
    | nil =>
      simp only [run, Except.ok.injEq, Prod.mk.injEq] at hrun
      rw [← hrun.2]
      exact ⟨0, [], holds_fresh hk mem⟩
    | cons c cs => simp [run, perform_zero_fuel] at hrun
  | succ fuel =>
    obtain ⟨q', t', hr, hq'⟩ := run_refines hk hk1 fuel cs _ 0 [] (holds_fresh hk mem)
    rw [hr] at hrun
    simp only [Except.ok.injEq, Prod.mk.injEq] at hrun
    rw [← hrun.2]
    exact ⟨t', _, hq'⟩

theorem slot_invariant_of_holds {w k : Nat} (hk : k < w) {q : mpmc_bounded_queue_t T}
    {t : Nat} {l : List T} (h : Holds w k q t l) : slot_invariant w (2 ^ k) q := by
  obtain ⟨hsize, hmask, hlen, htail, hhead, hle, hfull, hfree⟩ := h
  have hlt : 2 ^ k < 2 ^ w := Nat.pow_lt_pow_right (by decide) hk
  have hocc : size_t_sub w q._head_seq q._tail_seq = l.length := by
    rw [hhead, htail, size_t_sub_add_left, Nat.mod_eq_of_lt (by omega)]
  have hidx : ∀ j, to_size_t w (q._tail_seq + j) &&& q._mask = (t + j) % 2 ^ k := by
    intro j
    rw [htail, hmask, to_size_t, Nat.mod_add_mod, index_eq_mod (Nat.le_of_lt hk)]
  unfold slot_invariant
  rw [hocc]
  refine ⟨hle, ?_, ?_⟩
  · intro j hj
    rw [seq_at, hidx, hfull j l[j] (List.getElem?_eq_getElem hj)]
    simp only [Option.map_some', to_size_t, htail]
    rw [Nat.add_assoc (t % 2 ^ w), Nat.mod_add_mod, Nat.add_assoc]
  · intro j hj1 hj2
    obtain ⟨d, hd⟩ := hfree j hj1 hj2
    rw [seq_at, hidx, hd]
    simp only [Option.map_some', to_size_t, htail, Nat.mod_add_mod]

theorem run_churn {w k : Nat} (hk : k < w) (fuel : Nat) (v o : T) (n : Nat) :
    ∀ (q : mpmc_bounded_queue_t T) (t : Nat), Holds w k q t [v] →
      ∃ q', run w (fuel + 1) q (churn v o n) = .ok (churn_results v n, q') ∧
        Holds w k q' (t + n) [v] := by
  induction n with
  | zero => intro q t h; exact ⟨q, rfl, h⟩
  | succ n ih =>
    intro q t h
    obtain ⟨q1, hd, h1⟩ := dequeue_of_cons hk h fuel o
    obtain ⟨q2, he, h2⟩ := enqueue_of_room hk h1 (by simp [Nat.two_pow_pos]) fuel v
    obtain ⟨q3, hr, h3⟩ := ih q2 (t + 1) (by simpa using h2)
    refine ⟨q3, by simp only [churn, churn_results, run, perform, hd, he, hr], ?_⟩
    have e : t + (n + 1) = t + 1 + n := by omega
    rw [e]; exact h3

theorem successes_churn (v o : T) (n : Nat) :
    successes call.is_enqueue (churn v o n) (churn_results v n) = n ∧
    successes call.is_dequeue (churn v o n) (churn_results v n) = n := by
  induction n with
  | zero => exact ⟨rfl, rfl⟩
  | succ n ih =>
    simp only [churn, churn_results, successes, call.is_enqueue, call.is_dequeue, ih.1, ih.2]
    constructor <;> simp <;> omega

theorem successes_enqueue_churn (v o : T) (n : Nat) :
    successes call.is_enqueue (call.enqueue v :: churn v o n) ((true, v) :: churn_results v n)
      = n + 1 ∧
    successes call.is_dequeue (call.enqueue v :: churn v o n) ((true, v) :: churn_results v n)
      = n := by
  simp only [successes, call.is_enqueue, call.is_dequeue, (successes_churn v o n).1,
    (successes_churn v o n).2]
  constructor
  · simp; omega
  · simp

theorem successes_enqueues (vs : List T) :
    successes call.is_enqueue (vs.map call.enqueue) (vs.map (fun v => (true, v))) = vs.length ∧
    successes call.is_dequeue (vs.map call.enqueue) (vs.map (fun v => (true, v))) = 0 := by
  induction vs with
  | nil => exact ⟨rfl, rfl⟩
  | cons v vs ih =>
    simp only [List.map_cons, successes, call.is_enqueue, call.is_dequeue, ih.1, ih.2,
      List.length_cons]
    constructor
    · simp; omega
    · simp

theorem run_enqueue_churn {w k : Nat} (hk : k < w) (mem : Nat → T) (fuel : Nat) (v o : T)
    (n : Nat) :
    ∃ q0 q, ctor w (2 ^ k) mem = some q0 ∧
      run w (fuel + 1) q0 (call.enqueue v :: churn v o n)
        = .ok ((true, v) :: churn_results v n, q) ∧
      Holds w k q n [v] := by
  obtain ⟨q1, he, h1⟩ := enqueue_of_room hk (holds_fresh hk mem)
    (by simp [Nat.two_pow_pos]) fuel v
  obtain ⟨q2, hr, h2⟩ := run_churn hk fuel v o n q1 0 (by simpa using h1)
  refine ⟨_, q2, ctor_pow hk mem, by simp only [run, perform, he, hr], ?_⟩
  simpa using h2
/-! ## Effects of one call, signed differences, iterator and push -/

theorem intptr_diff_self (w a : Nat) : intptr_diff w a a = 0 := by
  rw [intptr_diff_eq_zero_iff]
  unfold size_t_sub
  have hP : 0 < 2 ^ w := Nat.two_pow_pos w
  have ha : a % 2 ^ w < 2 ^ w := Nat.mod_lt _ hP
  have e : a % 2 ^ w + 2 ^ w - a % 2 ^ w = 2 ^ w := by omega
  rw [e, Nat.mod_self]

theorem enqueue_of_slot_ready (w fuel : Nat) (q : mpmc_bounded_queue_t T) (v : T)
    (node : node_t T) (hslot : q._buffer[q._head_seq &&& q._mask]? = some node)
    (hseq : node.seq = q._head_seq) :
    q.enqueue w (fuel + 1) v = .ok (true,
      ⟨q._size, q._mask,
        q._buffer.set (q._head_seq &&& q._mask) ⟨v, to_size_t w (q._head_seq + 1)⟩,
        to_size_t w (q._head_seq + 1), q._tail_seq⟩) := by
  simp only [enqueue, enqueue_loop, hslot, hseq, intptr_diff_self, if_true]

theorem dequeue_of_slot_published (w fuel : Nat) (q : mpmc_bounded_queue_t T) (out : T)
    (node : node_t T) (hslot : q._buffer[q._tail_seq &&& q._mask]? = some node)
    (hseq : node.seq = to_size_t w (q._tail_seq + 1)) :
    q.dequeue w (fuel + 1) out = .ok (true, node.data,
      ⟨q._size, q._mask,
        q._buffer.set (q._tail_seq &&& q._mask)
          ⟨node.data, to_size_t w (q._tail_seq + q._mask + 1)⟩,
        q._head_seq, to_size_t w (q._tail_seq + 1)⟩) := by
  simp only [dequeue, dequeue_loop, hslot, hseq, intptr_diff_self, if_true]

theorem mask_succ_eq_size (w t size : Nat) :
    to_size_t w (t + size_t_sub w size 1 + 1) = to_size_t w (t + size) := by
  unfold to_size_t size_t_sub
  rcases Nat.eq_zero_or_pos w with hw | hw
  · subst hw; simp [Nat.mod_one]
  · have hP := two_pow_pred_double hw
    have hH : 0 < 2 ^ (w - 1) := Nat.two_pow_pos _
    have h1 : 1 % 2 ^ w = 1 := Nat.mod_eq_of_lt (by omega)
    have hs : size % 2 ^ w < 2 ^ w := Nat.mod_lt _ (by omega)
    rw [h1, ← Nat.add_mod_mod t size]
    generalize size % 2 ^ w = s at *
    rcases Nat.eq_zero_or_pos s with h0 | h0
    · subst h0
      have e : (0 + 2 ^ w - 1) % 2 ^ w = 2 ^ w - 1 := by
        rw [Nat.zero_add]; exact Nat.mod_eq_of_lt (by omega)
      rw [e]
      have e2 : t + (2 ^ w - 1) + 1 = t + 0 + 2 ^ w := by omega
      rw [e2, Nat.add_mod_right]
    · have e : (s + 2 ^ w - 1) % 2 ^ w = s - 1 := by
        have : s + 2 ^ w - 1 = (s - 1) + 2 ^ w := by omega
        rw [this, Nat.add_mod_right]; exact Nat.mod_eq_of_lt (by omega)
      rw [e]
      congr 1; omega

theorem wrap_signed_zero (b : Nat) : wrap_signed b 0 = 0 := by
  have := wrap_signed_of_lt b 0 (Nat.two_pow_pos b)
  simpa [Nat.two_pow_pos] using this

theorem size_t_sub_self (w a : Nat) : size_t_sub w a a = 0 := by
  have := intptr_diff_self w a
  rwa [intptr_diff_eq_zero_iff] at this

theorem size_t_sub_recover {w a b : Nat} (ha : a < 2 ^ w) (hb : b < 2 ^ w) :
    (b + size_t_sub w a b) % 2 ^ w = a := by
  unfold size_t_sub
  rw [Nat.mod_eq_of_lt ha, Nat.mod_eq_of_lt hb]
  by_cases h : b ≤ a
  · have e : a + 2 ^ w - b = (a - b) + 2 ^ w := by omega
    rw [e, Nat.add_mod_right, Nat.mod_eq_of_lt (show a - b < 2 ^ w by omega)]
    have e2 : b + (a - b) = a := by omega
    rw [e2, Nat.mod_eq_of_lt ha]
  · rw [Nat.mod_eq_of_lt (show a + 2 ^ w - b < 2 ^ w by omega)]
    have e2 : b + (a + 2 ^ w - b) = a + 2 ^ w := by omega
    rw [e2, Nat.add_mod_right, Nat.mod_eq_of_lt ha]

theorem size_t_sub_eq_zero_iff {w a b : Nat} (ha : a < 2 ^ w) (hb : b < 2 ^ w) :
    size_t_sub w a b = 0 ↔ a = b := by
  constructor
  · intro h
    have := size_t_sub_recover ha hb
    rw [h, Nat.add_zero, Nat.mod_eq_of_lt hb] at this
    exact this.symm
  · rintro rfl
    have := intptr_diff_self w a
    rwa [intptr_diff_eq_zero_iff] at this

theorem seq_at_some {q : mpmc_bounded_queue_t T} {i s : Nat} (h : seq_at q i = some s) :
    ∃ node, q._buffer[i]? = some node ∧ node.seq = s := by
  unfold seq_at at h
  cases hb : q._buffer[i]? with
  | none => rw [hb] at h; simp at h
  | some node =>
    rw [hb] at h
    simp only [Option.map_some', Option.some.injEq] at h
    exact ⟨node, rfl, h⟩

/-- What the slot under the head cursor and the slot under the tail cursor carry in a state
that satisfies the invariant on `w`-bit words. -/
theorem slots_of_slot_invariant {w k : Nat} (hk1 : 0 < k) (hk : k < w)
    {q : mpmc_bounded_queue_t T} (hmask : q._mask = 2 ^ k - 1) (hh : q._head_seq < 2 ^ w)
    (ht : q._tail_seq < 2 ^ w) (hinv : slot_invariant w (2 ^ k) q) :
    (∃ node, q._buffer[q._head_seq &&& q._mask]? = some node ∧
      ((size_t_sub w q._head_seq q._tail_seq ≠ 2 ^ k ∧ node.seq = q._head_seq) ∨
       (size_t_sub w q._head_seq q._tail_seq = 2 ^ k ∧
          intptr_diff w node.seq q._head_seq < 0))) ∧
    (∃ node, q._buffer[q._tail_seq &&& q._mask]? = some node ∧
      ((q._head_seq ≠ q._tail_seq ∧ node.seq = to_size_t w (q._tail_seq + 1)) ∨
       (q._head_seq = q._tail_seq ∧
          intptr_diff w node.seq (to_size_t w (q._tail_seq + 1)) < 0))) := by
  obtain ⟨hocc, hpub, hfree⟩ := hinv
  have hP := two_pow_pred_double (show 0 < w by omega)
  have hH : 0 < 2 ^ (w - 1) := Nat.two_pow_pos _
  have hN1 : 2 ^ 1 ≤ 2 ^ k := Nat.pow_le_pow_right (by decide) hk1
  have hN2 : 2 ^ k ≤ 2 ^ (w - 1) := Nat.pow_le_pow_right (by decide) (by omega)
  have hhead := size_t_sub_recover hh ht
  have hzero := size_t_sub_eq_zero_iff (w := w) hh ht
  generalize size_t_sub w q._head_seq q._tail_seq = occ at *
  have htail0 : to_size_t w (q._tail_seq + 0) = q._tail_seq := by
    simp only [to_size_t, Nat.add_zero, Nat.mod_eq_of_lt ht]
  constructor
  · by_cases hfull : occ = 2 ^ k
    · obtain ⟨node, hnode, hseq⟩ := seq_at_some (hpub 0 (by omega))
      rw [htail0] at hnode
      have hidx : q._head_seq &&& q._mask = q._tail_seq &&& q._mask := by
        rw [hmask, Nat.and_pow_two_sub_one_eq_mod, Nat.and_pow_two_sub_one_eq_mod, ← hhead,
          hfull, Nat.mod_mod_of_dvd _ (pow_dvd_pow 2 (Nat.le_of_lt hk)), Nat.add_mod_right]
      refine ⟨node, by rw [hidx]; exact hnode, Or.inr ⟨hfull, ?_⟩⟩
      rw [intptr_diff_neg_iff, hseq, to_size_t]
      have e : q._head_seq = ((q._tail_seq + 0 + 1) + (2 ^ k - 1)) % 2 ^ w := by
        rw [← hhead, hfull]; congr 1; omega
      rw [e, size_t_sub_add_right, Nat.mod_eq_of_lt (show 2 ^ k - 1 < 2 ^ w by omega),
        Nat.mod_eq_of_lt (by omega)]
      omega
    · obtain ⟨node, hnode, hseq⟩ := seq_at_some (hfree occ (Nat.le_refl _) (by omega))
      have e : to_size_t w (q._tail_seq + occ) = q._head_seq := hhead
      rw [e] at hnode hseq
      exact ⟨node, hnode, Or.inl ⟨hfull, hseq⟩⟩
  · by_cases hempty : q._head_seq = q._tail_seq
    · have h0 : occ = 0 := hzero.mpr hempty
      obtain ⟨node, hnode, hseq⟩ := seq_at_some (hfree 0 (by omega) (by omega))
      rw [htail0] at hnode hseq
      refine ⟨node, hnode, Or.inr ⟨hempty, ?_⟩⟩
      rw [intptr_diff_neg_iff, hseq, to_size_t]
      have e : size_t_sub w q._tail_seq ((q._tail_seq + 1) % 2 ^ w) = 2 ^ w - 1 := by
        have := size_t_sub_add_right w q._tail_seq 1
        rw [Nat.mod_eq_of_lt ht, Nat.mod_eq_of_lt (show 1 < 2 ^ w by omega),
          Nat.mod_eq_of_lt (show 2 ^ w - 1 < 2 ^ w by omega)] at this
        exact this
      rw [e]; omega
    · have h0 : occ ≠ 0 := fun h => hempty (hzero.mp h)
      obtain ⟨node, hnode, hseq⟩ := seq_at_some (hpub 0 (by omega))
      rw [htail0] at hnode
      refine ⟨node, hnode, Or.inl ⟨hempty, ?_⟩⟩
      rw [hseq]

theorem enqueue_of_dif_neg (w fuel : Nat) (q : mpmc_bounded_queue_t T) (v : T)
    (node : node_t T) (hslot : q._buffer[q._head_seq &&& q._mask]? = some node)
    (hdif : intptr_diff w node.seq q._head_seq < 0) :
    q.enqueue w (fuel + 1) v = .ok (false, q) := by
  have h0 : ¬ intptr_diff w node.seq q._head_seq = 0 := by omega
  simp only [enqueue, enqueue_loop, hslot, hdif, h0, if_true, if_false]

theorem dequeue_of_dif_neg (w fuel : Nat) (q : mpmc_bounded_queue_t T) (out : T)
    (node : node_t T) (hslot : q._buffer[q._tail_seq &&& q._mask]? = some node)
    (hdif : intptr_diff w node.seq (to_size_t w (q._tail_seq + 1)) < 0) :
    q.dequeue w (fuel + 1) out = .ok (false, out, q) := by
  have h0 : ¬ intptr_diff w node.seq (to_size_t w (q._tail_seq + 1)) = 0 := by omega
  simp only [dequeue, dequeue_loop, hslot, hdif, h0, if_true, if_false]

theorem dequeue_of_dif_pos (w : Nat) (q : mpmc_bounded_queue_t T) (node : node_t T)
    (hslot : q._buffer[q._tail_seq &&& q._mask]? = some node)
    (hdif : 0 < intptr_diff w node.seq (to_size_t w (q._tail_seq + 1))) :
    ∀ (fuel : Nat) (out : T), q.dequeue w fuel out = .error .out_of_fuel := by
  have h0 : ¬ intptr_diff w node.seq (to_size_t w (q._tail_seq + 1)) = 0 := by omega
  have h1 : ¬ intptr_diff w node.seq (to_size_t w (q._tail_seq + 1)) < 0 := by omega
  intro fuel out
  induction fuel with
  | zero => rfl
  | succ fuel ih =>
    simp only [dequeue] at ih
    simp only [dequeue, dequeue_loop, hslot, h0, h1, if_false, ih]

/-- The signed differences in a state that satisfies the invariant on `w`-bit words, and what
the two methods return there. -/
theorem difs_of_slot_invariant {w k : Nat} (hk1 : 0 < k) (hk : k < w)
    {q : mpmc_bounded_queue_t T} (hmask : q._mask = 2 ^ k - 1) (hh : q._head_seq < 2 ^ w)
    (ht : q._tail_seq < 2 ^ w) (hinv : slot_invariant w (2 ^ k) q) :
    ∃ de dd, enqueue_dif w q = some de ∧ dequeue_dif w q = some dd ∧
      (de < 0 ↔ size_t_sub w q._head_seq q._tail_seq = 2 ^ k) ∧
      (de = 0 ↔ size_t_sub w q._head_seq q._tail_seq ≠ 2 ^ k) ∧
      (dd < 0 ↔ q._head_seq = q._tail_seq) ∧
      (dd = 0 ↔ q._head_seq ≠ q._tail_seq) ∧
      (∀ (fuel : Nat) (v : T), ∃ r q', q.enqueue w (fuel + 1) v = .ok (r, q') ∧
        (r = false ↔ size_t_sub w q._head_seq q._tail_seq = 2 ^ k)) ∧
      (∀ (fuel : Nat) (out : T), ∃ r d q', q.dequeue w (fuel + 1) out = .ok (r, d, q') ∧
        (r = false ↔ q._head_seq = q._tail_seq)) := by
  obtain ⟨⟨ne, hne, he⟩, ⟨nd, hnd, hd⟩⟩ := slots_of_slot_invariant hk1 hk hmask hh ht hinv
  refine ⟨intptr_diff w ne.seq q._head_seq,
    intptr_diff w nd.seq (to_size_t w (q._tail_seq + 1)),
    by simp only [enqueue_dif, hne, Option.map_some'],
    by simp only [dequeue_dif, hnd, Option.map_some'], ?_, ?_, ?_, ?_, ?_, ?_⟩
  · rcases he with ⟨h1, h2⟩ | ⟨h1, h2⟩
    · rw [h2, intptr_diff_self]; simp [h1]
    · simp [h1, h2]
  · rcases he with ⟨h1, h2⟩ | ⟨h1, h2⟩
    · rw [h2, intptr_diff_self]; simp [h1]
    · simp only [h1, ne_eq, not_true_eq_false, iff_false]; omega
  · rcases hd with ⟨h1, h2⟩ | ⟨h1, h2⟩
    · rw [h2, intptr_diff_self]; simp [h1]
    · simp [h1, h2]
  · rcases hd with ⟨h1, h2⟩ | ⟨h1, h2⟩
    · rw [h2, intptr_diff_self]; simp [h1]
    · simp only [h1, ne_eq, not_true_eq_false, iff_false]; omega
  · intro fuel v
    rcases he with ⟨h1, h2⟩ | ⟨h1, h2⟩
    · exact ⟨true, _, enqueue_of_slot_ready w fuel q v ne hne h2, by simp [h1]⟩
    · exact ⟨false, q, enqueue_of_dif_neg w fuel q v ne hne h2, by simp [h1]⟩
  · intro fuel out
    rcases hd with ⟨h1, h2⟩ | ⟨h1, h2⟩
    · exact ⟨true, _, _, dequeue_of_slot_published w fuel q out nd hnd h2, by simp [h1]⟩
    · exact ⟨false, out, q, dequeue_of_dif_neg w fuel q out nd hnd h2, by simp [h1]⟩

/-- With at least two slots no reachable state makes either difference positive, and every
call returns within its first loop iteration. -/
theorem retry_branch_not_taken (w k : Nat) (hk1 : 0 < k) (hk : k < w)
    (q : mpmc_bounded_queue_t T) (hq : Reachable w (2 ^ k) q) :
    ∃ de dd, enqueue_dif w q = some de ∧ de ≤ 0 ∧ dequeue_dif w q = some dd ∧ dd ≤ 0 ∧
      (∀ (v : T), ∃ r q', q.enqueue w 1 v = .ok (r, q')) ∧
      (∀ (out : T), ∃ r d q', q.dequeue w 1 out = .ok (r, d, q')) := by
  obtain ⟨mem, q0, fuel, cs, rs, h0, hrun⟩ := hq
  obtain ⟨t, l, h⟩ := holds_of_run hk hk1 mem q0 q fuel cs rs h0 hrun
  have hP : 0 < 2 ^ w := Nat.two_pow_pos w
  have hh : q._head_seq < 2 ^ w := by rw [h.2.2.2.2.1]; exact Nat.mod_lt _ hP
  have ht : q._tail_seq < 2 ^ w := by rw [h.2.2.2.1]; exact Nat.mod_lt _ hP
  obtain ⟨de, dd, h1, h2, h3, h4, h5, h6, h7, h8⟩ :=
    difs_of_slot_invariant hk1 hk h.2.1 hh ht (slot_invariant_of_holds hk h)
  refine ⟨de, dd, h1, ?_, h2, ?_, ?_, ?_⟩
  · by_cases hf : size_t_sub w q._head_seq q._tail_seq = 2 ^ k
    · have := h3.mpr hf; omega
    · have := h4.mpr hf; omega
  · by_cases hf : q._head_seq = q._tail_seq
    · have := h5.mpr hf; omega
    · have := h6.mpr hf; omega
  · intro v
    obtain ⟨r, q', hr, _⟩ := h7 0 v
    exact ⟨r, q', hr⟩
  · intro out
    obtain ⟨r, d, q', hr, _⟩ := h8 0 out
    exact ⟨r, d, q', hr⟩

/-- What `size()` returns whenever `_head_seq` is below `_tail_seq`: the occupancy plus
`_size`, reduced to a word and converted to `int`. -/
theorem size_when_head_below_tail (w iw : Nat) (q : mpmc_bounded_queue_t T)
    (hlt : q._head_seq < q._tail_seq) (ht : q._tail_seq < 2 ^ w) :
    q.size w iw
      = wrap_signed iw
          (((size_t_sub w q._head_seq q._tail_seq + q._size) % 2 ^ w : Nat) : Int) := by
  have hP : 0 < 2 ^ w := Nat.two_pow_pos w
  have hs : q._size % 2 ^ w < 2 ^ w := Nat.mod_lt _ hP
  have hocc : size_t_sub w q._head_seq q._tail_seq = q._head_seq + 2 ^ w - q._tail_seq := by
    unfold size_t_sub
    rw [Nat.mod_eq_of_lt (show q._head_seq < 2 ^ w by omega), Nat.mod_eq_of_lt ht,
      Nat.mod_eq_of_lt (by omega)]
  simp only [mpmc_bounded_queue_t.size, ge_iff_le, Nat.not_le.mpr hlt, if_false, to_size_t]
  congr 2
  rw [hocc]
  unfold size_t_sub
  rw [Nat.mod_eq_of_lt ht, Nat.mod_add_mod, ← Nat.add_mod_mod _ q._size]
  congr 1
  omega

theorem int_to_size_t_of_lt {w t : Nat} (ht : t < 2 ^ w) : int_to_size_t w (t : Int) = t := by
  unfold int_to_size_t
  rw [← Int.natCast_mod, Nat.mod_eq_of_lt ht, Int.toNat_ofNat]

/-- While fewer values have been taken out than there are slots (and that count fits `int`),
dereferencing `begin()` stays inside the buffer and yields the value the next `dequeue`
returns. -/
theorem begin_is_front_in_first_lap {w iw k : Nat} (hk : k < w) {q : mpmc_bounded_queue_t T}
    {t : Nat} {x : T} {l : List T} (h : Holds w k q t (x :: l)) (ht : t < 2 ^ k)
    (hti : t < 2 ^ (iw - 1)) (fuel : Nat) (out : T) :
    (q.begin w iw).myOffset < q._buffer.length ∧
    mpmc_bounded_queue_iter_t.operator_star q (q.begin w iw) = .ok x ∧
    ∃ q', q.dequeue w (fuel + 1) out = .ok (true, x, q') := by
  have hlt : 2 ^ k < 2 ^ w := Nat.pow_lt_pow_right (by decide) hk
  have htw : t < 2 ^ w := Nat.lt_trans ht hlt
  have htail : q._tail_seq = t := by rw [h.2.2.2.1, Nat.mod_eq_of_lt htw]
  have hti2 : t < 2 ^ iw := by
    rcases Nat.eq_zero_or_pos iw with h0 | h0
    · subst h0; simpa using hti
    · have := two_pow_pred_double h0; omega
  have hoff : (q.begin w iw).myOffset = t := by
    simp only [begin, mpmc_bounded_queue_iter_t.ctor, htail]
    rw [wrap_signed_of_lt iw t hti2, if_pos hti, int_to_size_t_of_lt htw]
  have hslot := h.2.2.2.2.2.2.1 0 x (by simp)
  rw [Nat.add_zero, Nat.mod_eq_of_lt ht] at hslot
  obtain ⟨q', hq', _⟩ := dequeue_of_cons hk h fuel out
  refine ⟨?_, ?_, q', hq'⟩
  · rw [hoff, h.2.2.1]; exact ht
  · simp only [mpmc_bounded_queue_iter_t.operator_star, hoff, hslot]

/-- In every state `push_front` and `push_back` are one function of the queue and the value:
the queue `enqueue` leaves, without what it returned. -/
theorem push_front_eq_push_back (w fuel : Nat) (q : mpmc_bounded_queue_t T) (x : T) :
    q.push_front w fuel x = q.push_back w fuel x ∧
    q.push_front w fuel x =
      (match q.enqueue w fuel x with
        | .error e => .error e
        | .ok (_, q') => .ok q') :=
  ⟨rfl, rfl⟩

/-- On a queue of at least two slots reached from a fresh one by any calls: while a slot is
free, `push_front(x)` and `push_back(x)` put `x` behind the values that wait, so that it is
dequeued last; on the full queue both return the queue as it was. -/
theorem push_front_appends_or_drops (w k : Nat) (hk1 : 0 < k) (hk : k < w) (mem : Nat → T)
    (fuel : Nat) (cs : List (call T)) (x out : T) :
    ∃ q0 q, ctor w (2 ^ k) mem = some q0 ∧
      run w (fuel + 1) q0 cs = .ok ((fifo_run (2 ^ k) [] cs).1, q) ∧
      ((fifo_run (2 ^ k) [] cs).2.length < 2 ^ k →
        ∃ q' q'', q.push_front w (fuel + 1) x = .ok q' ∧ q.push_back w (fuel + 1) x = .ok q' ∧
          run w (fuel + 1) q'
              (List.replicate ((fifo_run (2 ^ k) [] cs).2.length + 1) (call.dequeue out))
            = .ok (((fifo_run (2 ^ k) [] cs).2 ++ [x]).map (fun v => (true, v)), q'')) ∧
      ((fifo_run (2 ^ k) [] cs).2.length = 2 ^ k →
        q.push_front w (fuel + 1) x = .ok q ∧ q.push_back w (fuel + 1) x = .ok q) := by
  obtain ⟨q, t, hr, hq⟩ := run_refines hk hk1 fuel cs _ 0 [] (holds_fresh hk mem)
  refine ⟨_, q, ctor_pow hk mem, hr, ?_, ?_⟩
  · intro hroom
    obtain ⟨q', he, hq'⟩ := enqueue_of_room hk hq hroom fuel x
    obtain ⟨q'', hd, _⟩ := run_dequeues hk fuel out ((fifo_run (2 ^ k) [] cs).2 ++ [x]) q' t []
      (by simpa using hq')
    rw [List.length_append, List.length_singleton] at hd
    exact ⟨q', q'', by simp only [push_front, he], by simp only [push_back, he], hd⟩
  · intro hfull
    have he := enqueue_of_full hk hk1 hq hfull fuel x
    exact ⟨by simp only [push_front, he], by simp only [push_back, he]⟩

/-! ## Counting the calls that returned `true` -/

theorem ctor_some_pow {w size : Nat} {mem : Nat → T} {q0 : mpmc_bounded_queue_t T}
    (h : ctor w size mem = some q0) : ∃ k, k < w ∧ size = 2 ^ k := by
  unfold ctor at h
  split_ifs at h with hc
  have hc2 := hc
  unfold size_check at hc2
  simp only [Bool.and_eq_true, beq_iff_eq] at hc2
  have hle : size ≤ to_size_t w (bit_not w size + 1) := by
    have := @Nat.and_le_right size (to_size_t w (bit_not w size + 1))
    rw [hc2.2] at this
    exact this
  have hlt : size < 2 ^ w := Nat.lt_of_le_of_lt hle (Nat.mod_lt _ (Nat.two_pow_pos w))
  exact (size_check_iff w size hlt).mp hc

theorem fifo_run_counts (N : Nat) (cs : List (call T)) :
    ∀ l : List T, l.length ≤ N →
      successes call.is_dequeue cs (fifo_run N l cs).1 + (fifo_run N l cs).2.length
        = l.length + successes call.is_enqueue cs (fifo_run N l cs).1 ∧
      (fifo_run N l cs).2.length ≤ N := by
  induction cs with
  | nil => intro l hl; simp [fifo_run, successes, hl]
  | cons c cs ih =>
    intro l hl
    cases c with
    | enqueue v =>
      by_cases hroom : l.length < N
      · have := ih (l ++ [v]) (by simp; omega)
        simp only [fifo_run, fifo_perform, hroom, if_true, successes, call.is_enqueue,
          call.is_dequeue]
        simp only [List.length_append, List.length_singleton] at this
        constructor
        · simp; omega
        · exact this.2
      · have := ih l hl
        simp only [fifo_run, fifo_perform, hroom, if_false, successes, call.is_enqueue,
          call.is_dequeue]
        constructor
        · simp; omega
        · exact this.2
    | dequeue o =>
      cases l with
      | nil =>
        have := ih [] (by simp)
        simp only [fifo_run, fifo_perform, successes, call.is_enqueue, call.is_dequeue]
        constructor
        · simp; simpa using this.1
        · exact this.2
      | cons x xs =>
        have := ih xs (by simp at hl; omega)
        simp only [fifo_run, fifo_perform, successes, call.is_enqueue, call.is_dequeue]
        constructor
        · simp; omega
        · exact this.2

theorem successes_of_run_pow {w k : Nat} (hk : k < w) (hk1 : 0 < k) (mem : Nat → T)
    (q0 q : mpmc_bounded_queue_t T) (fuel : Nat) (cs : List (call T)) (rs : List (Bool × T))
    (h0 : ctor w (2 ^ k) mem = some q0) (hrun : run w fuel q0 cs = .ok (rs, q)) :
    successes call.is_dequeue cs rs ≤ successes call.is_enqueue cs rs ∧
    successes call.is_enqueue cs rs - successes call.is_dequeue cs rs ≤ 2 ^ k := by
  rw [ctor_pow hk mem, Option.some.injEq] at h0
  subst h0
  cases fuel with
  | zero =>
    cases cs with
    | nil =>
      simp only [run, Except.ok.injEq, Prod.mk.injEq] at hrun
      rw [← hrun.1]
      simp [successes]
    | cons c cs => simp [run, perform_zero_fuel] at hrun
  | succ fuel =>
    obtain ⟨q', t', hr, _⟩ := run_refines hk hk1 fuel cs _ 0 [] (holds_fresh hk mem)
    rw [hr] at hrun
    simp only [Except.ok.injEq, Prod.mk.injEq] at hrun
    rw [← hrun.1]
    have := fifo_run_counts (2 ^ k) cs ([] : List T) (by simp)
    simp only [List.length_nil, Nat.zero_add] at this
    omega

theorem dequeue_loop_true (w : Nat) (q q' : mpmc_bounded_queue_t T) (out d : T) :
    ∀ fuel : Nat, dequeue_loop w fuel q q._tail_seq out = .ok (true, d, q') →
      ∃ node, q._buffer[q._tail_seq &&& q._mask]? = some node ∧
        intptr_diff w node.seq (to_size_t w (q._tail_seq + 1)) = 0 ∧
        q' = ⟨q._size, q._mask,
          q._buffer.set (q._tail_seq &&& q._mask)
            ⟨node.data, to_size_t w (q._tail_seq + q._mask + 1)⟩,
          q._head_seq, to_size_t w (q._tail_seq + 1)⟩ := by
  intro fuel
  induction fuel with
  | zero => intro h; simp [dequeue_loop] at h
  | succ fuel ih =>
    intro h
    unfold dequeue_loop at h
    split at h
    · simp at h
    · rename_i node hnode
      simp only at h
      split_ifs at h with h1 h2
      · simp only [Except.ok.injEq, Prod.mk.injEq] at h
        exact ⟨node, hnode, h1, h.2.2.symm⟩
      · simp at h
      · exact ih h

theorem mod_succ_ne {P n : Nat} (hP : 2 ≤ P) : n % P ≠ (n + 1) % P := by
  intro h
  have ha : n % P < P := Nat.mod_lt _ (by omega)
  rw [← Nat.mod_add_mod] at h
  generalize n % P = a at *
  by_cases hlt : a + 1 < P
  · rw [Nat.mod_eq_of_lt hlt] at h; omega
  · have : a + 1 = P := by omega
    rw [this, Nat.mod_self] at h; omega

theorem one_slot_perform {w : Nat} (hw : 0 < w) (fuel : Nat) (q q' : mpmc_bounded_queue_t T)
    (n m : Nat) (c : call T) (r : Bool) (d : T) (h : OneSlot w q n m)
    (hp : perform w fuel q c = .ok (r, d, q')) :
    OneSlot w q' (n + (if c.is_enqueue && r then 1 else 0))
      (m + (if c.is_dequeue && r then 1 else 0)) := by
  obtain ⟨hmask, ⟨d0, hbuf⟩, hhead, htail, hmn⟩ := h
  have hP : 2 ≤ 2 ^ w := by
    have := two_pow_pred_double hw
    have := Nat.two_pow_pos (w - 1)
    omega
  cases c with
  | enqueue v =>
    cases fuel with
    | zero => simp [perform, enqueue, enqueue_loop] at hp
    | succ fuel =>
      have hslot : q._buffer[q._head_seq &&& q._mask]? = some ⟨d0, n % 2 ^ w⟩ := by
        rw [hmask, Nat.and_zero, hbuf]; rfl
      have hseq : intptr_diff w (n % 2 ^ w) q._head_seq = 0 := by
        rw [hhead, intptr_diff_eq_zero_iff]
        have := size_t_sub_add_left w n 0
        simpa using this
      simp only [perform, enqueue, enqueue_loop, hslot, hseq, if_true, Except.ok.injEq,
        Prod.mk.injEq] at hp
      obtain ⟨rfl, _, rfl⟩ := hp
      refine ⟨hmask, ⟨v, ?_⟩, ?_, ?_, ?_⟩
      · simp [hmask, hbuf, to_size_t, hhead, call.is_enqueue]
      · simp [to_size_t, hhead, call.is_enqueue]
      · simp [htail, call.is_dequeue]
      · simp [call.is_enqueue, call.is_dequeue]; omega
  | dequeue o =>
    simp only [perform, dequeue] at hp
    cases r with
    | false =>
      have := (dequeue_loop_cursors w o fuel q _ _ _ _ hp).1 rfl
      rw [this.1]
      simpa [call.is_enqueue, call.is_dequeue] using
        (⟨hmask, ⟨d0, hbuf⟩, hhead, htail, hmn⟩ : OneSlot w q n m)
    | true =>
      obtain ⟨node, hnode, hdif, hq'⟩ := dequeue_loop_true w q q' o d fuel hp
      have hslot : q._buffer[q._tail_seq &&& q._mask]? = some ⟨d0, n % 2 ^ w⟩ := by
        rw [hmask, Nat.and_zero, hbuf]; rfl
      rw [hslot, Option.some.injEq] at hnode
      subst hnode
      simp only at hdif
      rw [intptr_diff_eq_zero_iff, htail, to_size_t, Nat.mod_add_mod] at hdif
      have hP0 : 0 < 2 ^ w := by omega
      have heq : n % 2 ^ w = (m + 1) % 2 ^ w :=
        (size_t_sub_eq_zero_iff (Nat.mod_lt _ hP0) (Nat.mod_lt _ hP0)).mp hdif
      have hne : m ≠ n := by
        intro e; subst e
        exact mod_succ_ne hP heq
      subst hq'
      refine ⟨hmask, ⟨d0, ?_⟩, ?_, ?_, ?_⟩
      · simp [hmask, hbuf, to_size_t, htail, call.is_enqueue, heq]
      · simp [hhead, call.is_enqueue]
      · simp [to_size_t, htail, call.is_dequeue]
      · simp [call.is_enqueue, call.is_dequeue]; omega

theorem one_slot_run {w : Nat} (hw : 0 < w) (fuel : Nat) (cs : List (call T)) :
    ∀ (q q' : mpmc_bounded_queue_t T) (n m : Nat) (rs : List (Bool × T)),
      OneSlot w q n m → run w fuel q cs = .ok (rs, q') →
      m + successes call.is_dequeue cs rs ≤ n + successes call.is_enqueue cs rs := by
  induction cs with
  | nil =>
    intro q q' n m rs h hr
    simp only [run, Except.ok.injEq, Prod.mk.injEq] at hr
    rw [← hr.1]
    simpa [successes] using h.2.2.2.2
  | cons c cs ih =>
    intro q q' n m rs h hr
    simp only [run] at hr
    split at hr
    · simp at hr
    · rename_i r d q1 hp
      split at hr
      · simp at hr
      · rename_i rs1 q2 hr1
        simp only [Except.ok.injEq, Prod.mk.injEq] at hr
        obtain ⟨rfl, rfl⟩ := hr
        have h1 := one_slot_perform hw fuel q q1 n m c r d h hp
        have := ih q1 q2 _ _ rs1 h1 hr1
        simp only [successes]
        omega

theorem one_slot_fresh (w : Nat) (mem : Nat → T) :
    OneSlot w (⟨2 ^ 0, 2 ^ 0 - 1, seed mem (2 ^ 0), 0, 0⟩ : mpmc_bounded_queue_t T) 0 0 :=
  ⟨rfl, ⟨mem 0, by rw [Nat.zero_mod]; rfl⟩, by simp, by simp, Nat.le_refl 0⟩

theorem run_enqueues_one_slot {w : Nat} (hw : 0 < w) (fuel : Nat) (vs : List T) :
    ∀ (q : mpmc_bounded_queue_t T) (n m : Nat), OneSlot w q n m →
      ∃ q', run w (fuel + 1) q (vs.map call.enqueue) = .ok (vs.map (fun v => (true, v)), q') ∧
        OneSlot w q' (n + vs.length) m := by
  induction vs with
  | nil => intro q n m h; exact ⟨q, rfl, by simpa using h⟩
  | cons v vs ih =>
    intro q n m h
    obtain ⟨d0, hbuf⟩ := h.2.1
    have hslot : q._buffer[q._head_seq &&& q._mask]? = some ⟨d0, n % 2 ^ w⟩ := by
      rw [h.1, Nat.and_zero, hbuf]; rfl
    have he := enqueue_of_slot_ready w fuel q v _ hslot h.2.2.1.symm
    have hp : perform w (fuel + 1) q (call.enqueue v) = .ok (true, v,
        ⟨q._size, q._mask,
          q._buffer.set (q._head_seq &&& q._mask) ⟨v, to_size_t w (q._head_seq + 1)⟩,
          to_size_t w (q._head_seq + 1), q._tail_seq⟩) := by
      simp only [perform, he]
    have h1 := one_slot_perform hw (fuel + 1) q _ n m (call.enqueue v) true v h hp
    simp only [call.is_enqueue, call.is_dequeue, Bool.and_self, if_true, Bool.false_and,
      Bool.false_eq_true, if_false, Nat.add_zero] at h1
    obtain ⟨q2, hr, h2⟩ := ih _ (n + 1) m h1
    refine ⟨q2, by simp only [List.map_cons, run, hp, hr], ?_⟩
    have e : n + (v :: vs).length = n + 1 + vs.length := by simp; omega
    rw [e]; exact h2

/-- From a fresh queue no more calls of `dequeue` than of `enqueue` return `true`, and with at
least two slots the difference is at most the number of slots. -/
theorem successes_of_run (w size : Nat) (mem : Nat → T) (q0 q : mpmc_bounded_queue_t T)
    (fuel : Nat) (cs : List (call T)) (rs : List (Bool × T))
    (h0 : ctor w size mem = some q0) (hrun : run w fuel q0 cs = .ok (rs, q)) :
    successes call.is_dequeue cs rs ≤ successes call.is_enqueue cs rs ∧
    (2 ≤ size →
      successes call.is_enqueue cs rs - successes call.is_dequeue cs rs ≤ size) ∧
    size < 2 ^ w := by
  obtain ⟨k, hk, rfl⟩ := ctor_some_pow h0
  have hlt : 2 ^ k < 2 ^ w := Nat.pow_lt_pow_right (by decide) hk
  rcases Nat.eq_zero_or_pos k with hk0 | hk1
  · subst hk0
    rw [ctor_pow hk mem, Option.some.injEq] at h0
    subst h0
    have := one_slot_run (show 0 < w by omega) fuel cs _ q 0 0 rs (one_slot_fresh w mem) hrun
    refine ⟨by omega, ?_, hlt⟩
    intro h2
    simp at h2
  · have := successes_of_run_pow hk hk1 mem q0 q fuel cs rs h0 hrun
    exact ⟨this.1, fun _ => this.2, hlt⟩

theorem mod_eq_iff_of_sub_lt {P n m : Nat} (hmn : m ≤ n) (hlt : n - m < P) :
    m % P = n % P ↔ n - m = 0 := by
  constructor
  · intro h
    have h1 : (n - m) % P = 0 := Nat.sub_mod_eq_zero_of_mod_eq h.symm
    rwa [Nat.mod_eq_of_lt hlt] at h1
  · intro h
    have : n = m := by omega
    rw [this]

/-! ## The claims -/

/-- C1 (single-threaded FIFO round trip). For every capacity `2 ^ k` that fits a `w`-bit
word and every list `vs` of at most `2 ^ k` values, the constructor returns a queue on
which `enqueue` of the values of `vs`, in order, returns `true` every time, after which
as many calls of `dequeue` each return `true` and deliver the values of `vs` in the same
order. Every call returns on any positive amount of fuel. -/
theorem fifo_round_trip (w k : Nat) (hk : k < w) (mem : Nat → T) (fuel : Nat) (vs : List T)
    (hvs : vs.length ≤ 2 ^ k) (out : T) :
    ∃ q0 q1 q2, ctor w (2 ^ k) mem = some q0 ∧
      run w (fuel + 1) q0 (vs.map call.enqueue) = .ok (vs.map (fun v => (true, v)), q1) ∧
      run w (fuel + 1) q1 (List.replicate vs.length (call.dequeue out))
        = .ok (vs.map (fun v => (true, v)), q2) := by
  obtain ⟨q1, h1, hq1⟩ := run_enqueues hk fuel vs _ 0 [] (holds_fresh hk mem) (by simpa using hvs)
  obtain ⟨q2, h2, _⟩ := run_dequeues hk fuel out vs q1 0 [] (by simpa using hq1)
  exact ⟨_, q1, q2, ctor_pow hk mem, h1, h2⟩

/-- Witness of C1: three values through a queue of four slots on a 64-bit word. -/
theorem fifo_round_trip_witness :
    2 < 64 ∧ [11, 22, 33].length ≤ 2 ^ 2 ∧
    ∃ q0 q1 q2, ctor 64 (2 ^ 2) (fun _ => (0 : Nat)) = some q0 ∧
      run 64 1 q0 [call.enqueue 11, call.enqueue 22, call.enqueue 33]
        = .ok ([(true, 11), (true, 22), (true, 33)], q1) ∧
      run 64 1 q1 [call.dequeue 0, call.dequeue 0, call.dequeue 0]
        = .ok ([(true, 11), (true, 22), (true, 33)], q2) :=
  ⟨by decide, by decide,
    fifo_round_trip 64 2 (by decide) (fun _ => (0 : Nat)) 0 [11, 22, 33] (by decide) 0⟩

/-- C2 (capacity boundary), evaluated at the failing input: the constructor accepts the
size 1, and on that queue the second call of `enqueue`, made with no `dequeue` in between,
returns `true` and overwrites the value the first call stored. -/
theorem capacity_one_accepts_second_enqueue :
    ctor 64 1 (fun _ => (0 : Nat)) = some ⟨1, 0, [⟨0, 0⟩], 0, 0⟩ ∧
    (⟨1, 0, [⟨0, 0⟩], 0, 0⟩ : mpmc_bounded_queue_t Nat).enqueue 64 1 10
      = .ok (true, ⟨1, 0, [⟨10, 1⟩], 1, 0⟩) ∧
    (⟨1, 0, [⟨10, 1⟩], 1, 0⟩ : mpmc_bounded_queue_t Nat).enqueue 64 1 20
      = .ok (true, ⟨1, 0, [⟨20, 2⟩], 2, 0⟩) :=
  ⟨rfl, rfl, rfl⟩

/-- C3 (slot reuse after a full queue). For every capacity `2 ^ k` that fits a `w`-bit word:
after `2 ^ k` calls of `enqueue` on a fresh queue, one `dequeue` returns `true` with the
first value, one more `enqueue` returns `true`, and the `2 ^ k` calls of `dequeue` that
follow return the other original values and then the new value, in that order. -/
theorem slot_reuse_after_full (w k : Nat) (hk : k < w) (mem : Nat → T) (fuel : Nat) (v : T)
    (vs : List T) (hvs : (v :: vs).length = 2 ^ k) (x out : T) :
    ∃ q0 q1 q2 q3 q4, ctor w (2 ^ k) mem = some q0 ∧
      run w (fuel + 1) q0 ((v :: vs).map call.enqueue)
        = .ok ((v :: vs).map (fun a => (true, a)), q1) ∧
      q1.dequeue w (fuel + 1) out = .ok (true, v, q2) ∧
      q2.enqueue w (fuel + 1) x = .ok (true, q3) ∧
      run w (fuel + 1) q3 (List.replicate (2 ^ k) (call.dequeue out))
        = .ok ((vs ++ [x]).map (fun a => (true, a)), q4) := by
  obtain ⟨q1, h1, hq1⟩ := run_enqueues hk fuel (v :: vs) _ 0 [] (holds_fresh hk mem)
    (by simp only [List.length_nil, Nat.zero_add]; omega)
  simp only [List.nil_append] at hq1
  obtain ⟨q2, h2, hq2⟩ := dequeue_of_cons hk hq1 fuel out
  simp only [List.length_cons] at hvs
  obtain ⟨q3, h3, hq3⟩ := enqueue_of_room hk hq2 (by omega) fuel x
  obtain ⟨q4, h4, _⟩ := run_dequeues hk fuel out (vs ++ [x]) q3 1 [] (by simpa using hq3)
  have e : (vs ++ [x]).length = 2 ^ k := by simp; omega
  rw [e] at h4
  exact ⟨_, q1, q2, q3, q4, ctor_pow hk mem, h1, h2, h3, h4⟩

/-- Witness of C3: a queue of two slots on a 64-bit word. -/
theorem slot_reuse_after_full_witness :
    1 < 64 ∧ [11, 22].length = 2 ^ 1 ∧
    ∃ q0 q1 q2 q3 q4, ctor 64 (2 ^ 1) (fun _ => (0 : Nat)) = some q0 ∧
      run 64 1 q0 [call.enqueue 11, call.enqueue 22] = .ok ([(true, 11), (true, 22)], q1) ∧
      q1.dequeue 64 1 0 = .ok (true, 11, q2) ∧
      q2.enqueue 64 1 33 = .ok (true, q3) ∧
      run 64 1 q3 [call.dequeue 0, call.dequeue 0] = .ok ([(true, 22), (true, 33)], q4) :=
  ⟨by decide, by decide,
    slot_reuse_after_full 64 1 (by decide) (fun _ => (0 : Nat)) 0 11 [22] (by decide) 33 0⟩

/-- C4 (empty boundary). For every capacity `2 ^ k` that fits a `w`-bit word, `dequeue` on
the freshly constructed queue returns `false`, and it hands back the caller's variable and
the whole queue (both cursors and every slot) as they were. -/
theorem dequeue_fresh_fails (w k : Nat) (hk : k < w) (mem : Nat → T) (fuel : Nat) (out : T) :
    ∃ q0, ctor w (2 ^ k) mem = some q0 ∧ q0.dequeue w (fuel + 1) out = .ok (false, out, q0) :=
  ⟨_, ctor_pow hk mem, dequeue_of_nil hk (holds_fresh hk mem) fuel out⟩

/-- Witness of C4: a fresh queue of eight slots on a 64-bit word. -/
theorem dequeue_fresh_fails_witness :
    3 < 64 ∧
    ∃ q0, ctor 64 (2 ^ 3) (fun i => i + 100) = some q0 ∧ q0.dequeue 64 1 5 = .ok (false, 5, q0) :=
  ⟨by decide, dequeue_fresh_fails 64 3 (by decide) (fun i => i + 100) 0 5⟩

/-- C5 (failure is atomic). In every queue state, whatever the fuel: when `enqueue` returns
`false` the queue after the call is the queue before it, and when `dequeue` returns `false`
the queue and the caller's variable after the call are those before it. -/
theorem failure_is_atomic (w fuel : Nat) :
    (∀ (q q' : mpmc_bounded_queue_t T) (v : T),
      q.enqueue w fuel v = .ok (false, q') → q' = q) ∧
    (∀ (q q' : mpmc_bounded_queue_t T) (out out' : T),
      q.dequeue w fuel out = .ok (false, out', q') → q' = q ∧ out' = out) :=
  ⟨fun q _ v h => (enqueue_loop_cursors w v fuel q _ _ _ h).1 rfl,
   fun q _ out _ h => (dequeue_loop_cursors w out fuel q _ _ _ _ h).1 rfl⟩

/-- Witness of C5: `enqueue` on a full queue of two slots and `dequeue` on a fresh one both
return `false`. -/
theorem failure_is_atomic_witness :
    ((⟨2, 1, [⟨11, 1⟩, ⟨22, 2⟩], 2, 0⟩ : mpmc_bounded_queue_t Nat).enqueue 64 1 33
        = .ok (false, ⟨2, 1, [⟨11, 1⟩, ⟨22, 2⟩], 2, 0⟩) ∧
      (⟨2, 1, [⟨11, 1⟩, ⟨22, 2⟩], 2, 0⟩ : mpmc_bounded_queue_t Nat)
        = ⟨2, 1, [⟨11, 1⟩, ⟨22, 2⟩], 2, 0⟩) ∧
    ((⟨2, 1, [⟨0, 0⟩, ⟨0, 1⟩], 0, 0⟩ : mpmc_bounded_queue_t Nat).dequeue 64 1 5
        = .ok (false, 5, ⟨2, 1, [⟨0, 0⟩, ⟨0, 1⟩], 0, 0⟩) ∧
      (⟨2, 1, [⟨0, 0⟩, ⟨0, 1⟩], 0, 0⟩ : mpmc_bounded_queue_t Nat)
        = ⟨2, 1, [⟨0, 0⟩, ⟨0, 1⟩], 0, 0⟩ ∧ 5 = 5) :=
  ⟨⟨rfl, (failure_is_atomic 64 1).1 _ _ 33 rfl⟩, ⟨rfl, (failure_is_atomic 64 1).2 _ _ 5 _ rfl⟩⟩

/-- C6 (single-threaded refinement of a bounded FIFO). For every capacity `2 ^ k` with
`k ≥ 1` that fits a `w`-bit word and every finite sequence of calls made on a fresh queue,
every call returns, and the values returned are those of the bounded list `fifo_run`:
`enqueue` returns `true` and appends while fewer than `2 ^ k` values wait and `false`
otherwise, `dequeue` returns `true` with the oldest value while one waits and `false`
otherwise. The sequence may be of any length, also one that wraps the cursors. -/
theorem single_thread_refines_bounded_fifo (w k : Nat) (hk1 : 0 < k) (hk : k < w)
    (mem : Nat → T) (fuel : Nat) (cs : List (call T)) :
    ∃ q0 q, ctor w (2 ^ k) mem = some q0 ∧
      run w (fuel + 1) q0 cs = .ok ((fifo_run (2 ^ k) [] cs).1, q) := by
  obtain ⟨q, t, hr, _⟩ := run_refines hk hk1 fuel cs _ 0 [] (holds_fresh hk mem)
  exact ⟨_, q, ctor_pow hk mem, hr⟩

/-- Witness of C6: five calls on a queue of two slots, among them an `enqueue` on the full
queue and a `dequeue` on the empty one. -/
theorem single_thread_refines_bounded_fifo_witness :
    0 < 1 ∧ 1 < 64 ∧
    ∃ q0 q, ctor 64 (2 ^ 1) (fun _ => (0 : Nat)) = some q0 ∧
      run 64 1 q0 [call.dequeue 5, call.enqueue 11, call.enqueue 22, call.enqueue 33,
          call.dequeue 5]
        = .ok ([(false, 5), (true, 11), (true, 22), (false, 33), (true, 11)], q) :=
  ⟨by decide, by decide,
    single_thread_refines_bounded_fifo 64 1 (by decide) (by decide) (fun _ => (0 : Nat)) 0
      [call.dequeue 5, call.enqueue 11, call.enqueue 22, call.enqueue 33, call.dequeue 5]⟩

/-- C7 (construction precondition). For every `w`-bit word `size`, the constructor's check
`(size != 0) && ((size & (~size + 1)) == size)` holds exactly when `size = 2 ^ k` for some
`k < w`, and the constructor returns a queue exactly in that case: it aborts for 0 and for
every value that is not a power of two. -/
theorem ctor_succeeds_iff_power_of_two (w size : Nat) (hsize : size < 2 ^ w) (mem : Nat → T) :
    (size_check w size = true ↔ ∃ k, k < w ∧ size = 2 ^ k) ∧
    ((ctor w size mem).isSome = true ↔ ∃ k, k < w ∧ size = 2 ^ k) := by
  refine ⟨size_check_iff w size hsize, ?_⟩
  rw [← size_check_iff w size hsize]
  unfold ctor
  split_ifs with h <;> simp [h]

/-- Witness of C7: the size 4096 on a 64-bit word. -/
theorem ctor_succeeds_iff_power_of_two_witness :
    4096 < 2 ^ 64 ∧
    (size_check 64 4096 = true ↔ ∃ k, k < 64 ∧ 4096 = 2 ^ k) ∧
    ((ctor 64 4096 (fun _ => (0 : Nat))).isSome = true ↔ ∃ k, k < 64 ∧ 4096 = 2 ^ k) :=
  ⟨by decide, ctor_succeeds_iff_power_of_two 64 4096 (by decide) (fun _ => (0 : Nat))⟩

/-- C8 as amended (quiesced size and empty). Starting from a freshly constructed queue, after
a sequence of calls that all returned, of which `N` calls of `enqueue` and `M` calls of
`dequeue` returned `true`: `M ≤ N`, and with at least two slots `N - M` is at most the
number of slots, which is below `2 ^ w`. Whenever `N - M < 2 ^ w`, `empty()` returns `true`
exactly when `N - M = 0`; and `size()` returns `N - M` when moreover `_tail_seq ≤ _head_seq`
as words (the branch `size()` computes correctly) and `N - M < 2 ^ (iw - 1)` (the
difference fits `int`). -/
theorem size_and_empty_when_quiesced (w iw size : Nat) (mem : Nat → T) (fuel : Nat)
    (cs : List (call T)) (q0 q : mpmc_bounded_queue_t T) (rs : List (Bool × T))
    (h0 : ctor w size mem = some q0) (hrun : run w fuel q0 cs = .ok (rs, q)) :
    successes call.is_dequeue cs rs ≤ successes call.is_enqueue cs rs ∧
    (2 ≤ size →
      successes call.is_enqueue cs rs - successes call.is_dequeue cs rs ≤ size) ∧
    size < 2 ^ w ∧
    (successes call.is_enqueue cs rs - successes call.is_dequeue cs rs < 2 ^ w →
      (q.empty = true ↔
        successes call.is_enqueue cs rs - successes call.is_dequeue cs rs = 0) ∧
      (q._tail_seq ≤ q._head_seq →
        successes call.is_enqueue cs rs - successes call.is_dequeue cs rs < 2 ^ (iw - 1) →
        q.size w iw
          = ((successes call.is_enqueue cs rs - successes call.is_dequeue cs rs : Nat) :
              Int))) := by
  obtain ⟨hmn, hcap, hsize⟩ := successes_of_run w size mem q0 q fuel cs rs h0 hrun
  obtain ⟨hh0, ht0⟩ := ctor_cursors h0
  have hP : 0 < 2 ^ w := Nat.two_pow_pos w
  obtain ⟨hh, ht⟩ := run_cursors w fuel cs q0 q rs hrun (by omega) (by omega)
  generalize successes call.is_enqueue cs rs = n at *
  generalize successes call.is_dequeue cs rs = m at *
  rw [hh0, Nat.zero_add] at hh
  rw [ht0, Nat.zero_add] at ht
  refine ⟨hmn, hcap, hsize, ?_⟩
  intro hw
  constructor
  · simp only [mpmc_bounded_queue_t.empty, hh, ht, beq_iff_eq]
    exact mod_eq_iff_of_sub_lt hmn hw
  · intro hle hiw
    have hsub : size_t_sub w q._head_seq q._tail_seq = n - m := by
      have := size_t_sub_add_left w m (n - m)
      rw [show m + (n - m) = n by omega, Nat.mod_eq_of_lt hw] at this
      rw [hh, ht]; exact this
    have hlt : n - m < 2 ^ iw := by
      rcases Nat.eq_zero_or_pos iw with h | h
      · subst h; simpa using hiw
      · have := two_pow_pred_double h; omega
    simp only [mpmc_bounded_queue_t.size, ge_iff_le, hle, if_true, hsub]
    rw [wrap_signed_of_lt iw _ hlt, if_pos hiw]

/-- Witness of C8: on a queue of two slots on a 64-bit word, one `enqueue` followed by `2 ^ 64`
rounds of `dequeue; enqueue`: `2 ^ 64 + 1` calls of `enqueue` and `2 ^ 64` calls of `dequeue`
returned `true`, both cursors have wrapped, `size()` is 1 and `empty()` is `false`. -/
theorem size_and_empty_when_quiesced_witness :
    ∃ q0 q, ctor 64 (2 ^ 1) (fun _ => (0 : Nat)) = some q0 ∧
      run 64 1 q0 (call.enqueue 7 :: churn 7 0 (2 ^ 64))
        = .ok ((true, 7) :: churn_results 7 (2 ^ 64), q) ∧
      successes call.is_enqueue (call.enqueue 7 :: churn 7 0 (2 ^ 64))
        ((true, 7) :: churn_results 7 (2 ^ 64)) = 2 ^ 64 + 1 ∧
      successes call.is_dequeue (call.enqueue 7 :: churn 7 0 (2 ^ 64))
        ((true, 7) :: churn_results 7 (2 ^ 64)) = 2 ^ 64 ∧
      q._head_seq = 1 ∧ q._tail_seq = 0 ∧
      q.size 64 32 = 1 ∧ (q.empty = true ↔ 2 ^ 64 + 1 - 2 ^ 64 = 0) := by
  obtain ⟨q0, q, h0, hr, h⟩ :=
    run_enqueue_churn (show 1 < 64 by decide) (fun _ => (0 : Nat)) 0 7 0 (2 ^ 64)
  have hh : q._head_seq = 1 := by rw [h.2.2.2.2.1]; decide
  have ht : q._tail_seq = 0 := by rw [h.2.2.2.1]; decide
  have hs := successes_enqueue_churn (7 : Nat) 0 (2 ^ 64)
  have hthm := size_and_empty_when_quiesced 64 32 (2 ^ 1) (fun _ => (0 : Nat)) 1
    (call.enqueue 7 :: churn 7 0 (2 ^ 64)) q0 q ((true, 7) :: churn_results 7 (2 ^ 64)) h0 hr
  rw [hs.1, hs.2] at hthm
  obtain ⟨hempty, hsize⟩ := hthm.2.2.2 (by decide)
  refine ⟨q0, q, h0, hr, hs.1, hs.2, hh, ht, ?_, hempty⟩
  have := hsize (by rw [hh, ht]; decide) (by decide)
  rw [this]; decide

/-- Counterexample to C8 as stated, on a 64-bit word with a 32-bit `int`. On a queue of two
slots, one `enqueue` followed by `2 ^ 64 - 1` rounds of `dequeue; enqueue` all return `true`,
so `2 ^ 64` calls of `enqueue` and `2 ^ 64 - 1` calls of `dequeue` returned `true`, and
`size()` returns 3, not 1. On a queue of `2 ^ 32` slots, `2 ^ 31` calls of `enqueue` all
return `true` and `size()` returns `-2 ^ 31`, not `2 ^ 31`. On a queue of one slot, `2 ^ 64`
calls of `enqueue` all return `true` and no `dequeue` is made, yet `empty()` returns `true`
and `size()` returns 0. -/
theorem size_and_empty_differ_from_counts :
    (∃ q0 q, ctor 64 (2 ^ 1) (fun _ => (0 : Nat)) = some q0 ∧
      run 64 1 q0 (call.enqueue 7 :: churn 7 0 (2 ^ 64 - 1))
        = .ok ((true, 7) :: churn_results 7 (2 ^ 64 - 1), q) ∧
      successes call.is_enqueue (call.enqueue 7 :: churn 7 0 (2 ^ 64 - 1))
        ((true, 7) :: churn_results 7 (2 ^ 64 - 1)) = 2 ^ 64 ∧
      successes call.is_dequeue (call.enqueue 7 :: churn 7 0 (2 ^ 64 - 1))
        ((true, 7) :: churn_results 7 (2 ^ 64 - 1)) = 2 ^ 64 - 1 ∧
      q.size 64 32 = 3 ∧ q.size 64 32 ≠ ((2 ^ 64 - (2 ^ 64 - 1) : Nat) : Int)) ∧
    (∃ q0 q, ctor 64 (2 ^ 32) (fun _ => (0 : Nat)) = some q0 ∧
      run 64 1 q0 ((List.replicate (2 ^ 31) 7).map call.enqueue)
        = .ok ((List.replicate (2 ^ 31) 7).map (fun v => (true, v)), q) ∧
      successes call.is_enqueue ((List.replicate (2 ^ 31) 7).map call.enqueue)
        ((List.replicate (2 ^ 31) 7).map (fun v => (true, v))) = 2 ^ 31 ∧
      successes call.is_dequeue ((List.replicate (2 ^ 31) 7).map call.enqueue)
        ((List.replicate (2 ^ 31) 7).map (fun v => (true, v))) = 0 ∧
      q.size 64 32 = -2 ^ 31 ∧ q.size 64 32 ≠ ((2 ^ 31 - 0 : Nat) : Int)) ∧
    (∃ q0 q, ctor 64 (2 ^ 0) (fun _ => (0 : Nat)) = some q0 ∧
      run 64 1 q0 ((List.replicate (2 ^ 64) 7).map call.enqueue)
        = .ok ((List.replicate (2 ^ 64) 7).map (fun v => (true, v)), q) ∧
      successes call.is_enqueue ((List.replicate (2 ^ 64) 7).map call.enqueue)
        ((List.replicate (2 ^ 64) 7).map (fun v => (true, v))) = 2 ^ 64 ∧
      successes call.is_dequeue ((List.replicate (2 ^ 64) 7).map call.enqueue)
        ((List.replicate (2 ^ 64) 7).map (fun v => (true, v))) = 0 ∧
      q.empty = true ∧ 2 ^ 64 - 0 ≠ 0 ∧ q.size 64 32 = 0) := by
  refine ⟨?_, ?_, ?_⟩
  · obtain ⟨q0, q, h0, hr, h⟩ :=
      run_enqueue_churn (show 1 < 64 by decide) (fun _ => (0 : Nat)) 0 7 0 (2 ^ 64 - 1)
    have hh : q._head_seq = 0 := by rw [h.2.2.2.2.1]; decide
    have ht : q._tail_seq = 2 ^ 64 - 1 := by rw [h.2.2.2.1]; decide
    have hs := successes_enqueue_churn (7 : Nat) 0 (2 ^ 64 - 1)
    have hsz : q.size 64 32 = 3 := by
      simp only [mpmc_bounded_queue_t.size, hh, ht, h.1]; decide
    refine ⟨q0, q, h0, hr, hs.1.trans (by decide), hs.2, hsz, ?_⟩
    rw [hsz]; decide
  · obtain ⟨q, hr, h⟩ := run_enqueues (show 32 < 64 by decide) 0 (List.replicate (2 ^ 31) 7)
      _ 0 [] (holds_fresh (show 32 < 64 by decide) (fun _ => (0 : Nat)))
      (by rw [List.length_replicate]; decide)
    have hh : q._head_seq = 2 ^ 31 := by
      rw [h.2.2.2.2.1, List.nil_append, List.length_replicate]; decide
    have ht : q._tail_seq = 0 := by rw [h.2.2.2.1]; decide
    have hs := successes_enqueues (List.replicate (2 ^ 31) (7 : Nat))
    rw [List.length_replicate] at hs
    have hsz : q.size 64 32 = -2 ^ 31 := by
      simp only [mpmc_bounded_queue_t.size, hh, ht, h.1]; decide
    refine ⟨_, q, ctor_pow (by decide) _, hr, hs.1, hs.2, hsz, ?_⟩
    rw [hsz]; decide
  · obtain ⟨q, hr, h⟩ := run_enqueues_one_slot (show 0 < 64 by decide) 0
      (List.replicate (2 ^ 64) (7 : Nat)) _ 0 0 (one_slot_fresh 64 (fun _ => (0 : Nat)))
    rw [List.length_replicate] at h
    have hh : q._head_seq = 0 := by rw [h.2.2.1]; decide
    have ht : q._tail_seq = 0 := by rw [h.2.2.2.1]; decide
    have hs := successes_enqueues (List.replicate (2 ^ 64) (7 : Nat))
    rw [List.length_replicate] at hs
    refine ⟨_, q, ctor_pow (by decide) _, hr, hs.1, hs.2, ?_, by decide, ?_⟩
    · simp only [mpmc_bounded_queue_t.empty, hh, ht, beq_self_eq_true]
    · simp only [mpmc_bounded_queue_t.size, hh, ht, ge_iff_le, Nat.le_refl, if_true]; decide

/-- C9 (exactly-once delivery), evaluated at the failing input, the schedule in which one
producer finishes `enqueue(10)` and `enqueue(20)` on the queue of one slot before the
consumer starts: both calls return `true`, afterwards no slot holds 10, and the consumer's
`dequeue` does not return on any amount of fuel, so 10 is delivered by no `dequeue`. -/
theorem capacity_one_loses_enqueued_value :
    ctor 64 1 (fun _ => (0 : Nat)) = some ⟨1, 0, [⟨0, 0⟩], 0, 0⟩ ∧
    run 64 1 (⟨1, 0, [⟨0, 0⟩], 0, 0⟩ : mpmc_bounded_queue_t Nat)
        [call.enqueue 10, call.enqueue 20]
      = .ok ([(true, 10), (true, 20)], ⟨1, 0, [⟨20, 2⟩], 2, 0⟩) ∧
    (∀ node ∈ (⟨1, 0, [⟨20, 2⟩], 2, 0⟩ : mpmc_bounded_queue_t Nat)._buffer, node.data ≠ 10) ∧
    ∀ (fuel out : Nat),
      (⟨1, 0, [⟨20, 2⟩], 2, 0⟩ : mpmc_bounded_queue_t Nat).dequeue 64 fuel out
        = .error .out_of_fuel :=
  ⟨rfl, rfl, by decide,
    dequeue_of_dif_pos 64 (⟨1, 0, [⟨20, 2⟩], 2, 0⟩ : mpmc_bounded_queue_t Nat) ⟨20, 2⟩ rfl
      (by decide)⟩

/-- C10 as amended (slot-sequence invariant). For every capacity `2 ^ k` with `k ≥ 1` that
fits a `w`-bit word, every state reachable from a fresh queue by calls of `enqueue` and
`dequeue` satisfies, with all arithmetic on `w`-bit words: the occupancy
`_head_seq - _tail_seq` is at most `2 ^ k`; for every offset `j` below the occupancy the
slot at `(_tail_seq + j) & _mask` has seq `_tail_seq + j + 1`; for every offset `j` from the
occupancy up to `2 ^ k` the slot at `(_tail_seq + j) & _mask` has seq `_tail_seq + j`. -/
theorem reachable_slot_invariant (w k : Nat) (hk1 : 0 < k) (hk : k < w)
    (q : mpmc_bounded_queue_t T) (hq : Reachable w (2 ^ k) q) : slot_invariant w (2 ^ k) q := by
  obtain ⟨mem, q0, fuel, cs, rs, h0, hrun⟩ := hq
  obtain ⟨t, l, h⟩ := holds_of_run hk hk1 mem q0 q fuel cs rs h0 hrun
  exact slot_invariant_of_holds hk h

/-- Witness of C10: the state of a queue of two slots after `enqueue(11); enqueue(22);
dequeue`. -/
theorem reachable_slot_invariant_witness :
    0 < 1 ∧ 1 < 64 ∧
    Reachable 64 (2 ^ 1) (⟨2, 1, [⟨11, 2⟩, ⟨22, 2⟩], 2, 1⟩ : mpmc_bounded_queue_t Nat) ∧
    slot_invariant 64 (2 ^ 1) (⟨2, 1, [⟨11, 2⟩, ⟨22, 2⟩], 2, 1⟩ : mpmc_bounded_queue_t Nat) :=
  ⟨by decide, by decide,
    ⟨fun _ => 0, ⟨2, 1, [⟨0, 0⟩, ⟨0, 1⟩], 0, 0⟩, 1,
      [call.enqueue 11, call.enqueue 22, call.dequeue 5],
      [(true, 11), (true, 22), (true, 11)], rfl, rfl⟩,
    reachable_slot_invariant 64 1 (by decide) (by decide) _
      ⟨fun _ => 0, ⟨2, 1, [⟨0, 0⟩, ⟨0, 1⟩], 0, 0⟩, 1,
        [call.enqueue 11, call.enqueue 22, call.dequeue 5],
        [(true, 11), (true, 22), (true, 11)], rfl, rfl⟩⟩

/-- Counterexample to C10 as stated, on a 64-bit word: on a queue of two slots, one
`enqueue` followed by `2 ^ 64 - 1` rounds of `dequeue; enqueue` reaches a state with
`_head_seq = 0` and `_tail_seq = 2 ^ 64 - 1`, where `tail <= head` fails. -/
theorem plain_slot_invariant_fails_after_wrap :
    ∃ q0 q, ctor 64 (2 ^ 1) (fun _ => (0 : Nat)) = some q0 ∧
      run 64 1 q0 (call.enqueue 7 :: churn 7 0 (2 ^ 64 - 1))
        = .ok ((true, 7) :: churn_results 7 (2 ^ 64 - 1), q) ∧
      q._head_seq = 0 ∧ q._tail_seq = 2 ^ 64 - 1 ∧ ¬ plain_slot_invariant (2 ^ 1) q := by
  obtain ⟨q0, q, h0, hr, h⟩ :=
    run_enqueue_churn (show 1 < 64 by decide) (fun _ => (0 : Nat)) 0 7 0 (2 ^ 64 - 1)
  have hh : q._head_seq = 0 := by rw [h.2.2.2.2.1]; decide
  have ht : q._tail_seq = 2 ^ 64 - 1 := by rw [h.2.2.2.1]; decide
  refine ⟨q0, q, h0, hr, hh, ht, ?_⟩
  intro hp
  have := hp.1
  rw [hh, ht] at this
  exact absurd this (by decide)

/-- C11 (effect of a successful enqueue). In every state whose slot `_head_seq & _mask`
carries the sequence number `_head_seq`, `enqueue(v)` returns `true` on any positive fuel,
and in the state it leaves `_head_seq` is the `size_t` value `h + 1`, that slot holds `v` with
sequence number `h + 1`, and `_tail_seq`, every other slot, the number of slots, `_size` and
`_mask` are as before. -/
theorem enqueue_success_effect (w fuel : Nat) (q : mpmc_bounded_queue_t T) (v : T)
    (node : node_t T) (hslot : q._buffer[q._head_seq &&& q._mask]? = some node)
    (hseq : node.seq = q._head_seq) :
    ∃ q', q.enqueue w (fuel + 1) v = .ok (true, q') ∧
      q'._head_seq = to_size_t w (q._head_seq + 1) ∧
      q'._buffer[q._head_seq &&& q._mask]? = some ⟨v, to_size_t w (q._head_seq + 1)⟩ ∧
      q'._tail_seq = q._tail_seq ∧
      (∀ i, i ≠ q._head_seq &&& q._mask → q'._buffer[i]? = q._buffer[i]?) ∧
      q'._buffer.length = q._buffer.length ∧ q'._size = q._size ∧ q'._mask = q._mask := by
  have hlt : q._head_seq &&& q._mask < q._buffer.length := by
    by_contra hc
    rw [List.getElem?_eq_none (by omega)] at hslot
    exact absurd hslot (by simp)
  refine ⟨_, enqueue_of_slot_ready w fuel q v node hslot hseq, rfl, ?_, rfl, ?_, ?_, rfl, rfl⟩
  · simp only [List.getElem?_set, if_true, hlt]
  · intro i hi
    simp only [List.getElem?_set, if_neg (Ne.symm hi)]
  · simp only [List.length_set]

/-- Witness of C11: a queue of two slots on a 64-bit word whose head cursor is the largest
word; the successful `enqueue` wraps it to 0. -/
theorem enqueue_success_effect_witness :
    (⟨2, 1, [⟨0, 0⟩, ⟨0, 2 ^ 64 - 1⟩], 2 ^ 64 - 1, 2 ^ 64 - 1⟩ : mpmc_bounded_queue_t Nat)._buffer[
        (2 ^ 64 - 1) &&& 1]? = some ⟨0, 2 ^ 64 - 1⟩ ∧
    ∃ q', (⟨2, 1, [⟨0, 0⟩, ⟨0, 2 ^ 64 - 1⟩], 2 ^ 64 - 1, 2 ^ 64 - 1⟩ :
          mpmc_bounded_queue_t Nat).enqueue 64 1 5 = .ok (true, q') ∧
      q'._head_seq = 0 ∧ q'._buffer[1]? = some ⟨5, 0⟩ ∧ q'._tail_seq = 2 ^ 64 - 1 ∧
      (∀ i, i ≠ 1 → q'._buffer[i]? = ([⟨0, 0⟩, ⟨0, 2 ^ 64 - 1⟩] : List (node_t Nat))[i]?) ∧
      q'._buffer.length = 2 ∧ q'._size = 2 ∧ q'._mask = 1 :=
  ⟨rfl, enqueue_success_effect 64 0
    (⟨2, 1, [⟨0, 0⟩, ⟨0, 2 ^ 64 - 1⟩], 2 ^ 64 - 1, 2 ^ 64 - 1⟩ : mpmc_bounded_queue_t Nat) 5
    ⟨0, 2 ^ 64 - 1⟩ rfl rfl⟩

/-- C12 (effect of a successful dequeue). In every state whose slot `_tail_seq & _mask`
carries the sequence number `t + 1` (as a `size_t` value), `dequeue` returns `true` on any
positive fuel and hands the caller that slot's data; in the state it leaves `_tail_seq` is
`t + 1`, that slot has sequence number `t + _mask + 1`, which is `t + _size` because the
constructor set `_mask` to `_size - 1`, and `_head_seq`, the data of every slot, every other
slot, the number of slots, `_size` and `_mask` are as before. -/
theorem dequeue_success_effect (w fuel : Nat) (q : mpmc_bounded_queue_t T) (out : T)
    (node : node_t T) (hslot : q._buffer[q._tail_seq &&& q._mask]? = some node)
    (hseq : node.seq = to_size_t w (q._tail_seq + 1))
    (hmask : q._mask = size_t_sub w q._size 1) :
    ∃ q', q.dequeue w (fuel + 1) out = .ok (true, node.data, q') ∧
      q'._tail_seq = to_size_t w (q._tail_seq + 1) ∧
      q'._buffer[q._tail_seq &&& q._mask]?
        = some ⟨node.data, to_size_t w (q._tail_seq + q._size)⟩ ∧
      to_size_t w (q._tail_seq + q._mask + 1) = to_size_t w (q._tail_seq + q._size) ∧
      q'._head_seq = q._head_seq ∧
      (∀ i : Nat, (q'._buffer[i]?).map node_t.data = (q._buffer[i]?).map node_t.data) ∧
      (∀ i, i ≠ q._tail_seq &&& q._mask → q'._buffer[i]? = q._buffer[i]?) ∧
      q'._buffer.length = q._buffer.length ∧ q'._size = q._size ∧ q'._mask = q._mask := by
  have hlt : q._tail_seq &&& q._mask < q._buffer.length := by
    by_contra hc
    rw [List.getElem?_eq_none (by omega)] at hslot
    exact absurd hslot (by simp)
  have hcap : to_size_t w (q._tail_seq + q._mask + 1) = to_size_t w (q._tail_seq + q._size) := by
    rw [hmask]; exact mask_succ_eq_size w _ _
  refine ⟨_, dequeue_of_slot_published w fuel q out node hslot hseq, rfl, ?_, hcap, rfl, ?_, ?_,
    ?_, rfl, rfl⟩
  · simp only [List.getElem?_set, if_true, hlt, hcap]
  · intro i
    simp only [List.getElem?_set]
    by_cases hi : q._tail_seq &&& q._mask = i
    · subst hi
      simp only [if_true, hlt, hslot, Option.map_some']
    · simp only [if_neg hi]
  · intro i hi
    simp only [List.getElem?_set, if_neg (Ne.symm hi)]
  · simp only [List.length_set]

/-- Witness of C12: a full queue of two slots on a 64-bit word whose tail cursor is the
largest word; the successful `dequeue` wraps it to 0 and re-arms the slot with
`2 ^ 64 - 1 + 2`, which is 1. -/
theorem dequeue_success_effect_witness :
    (⟨2, 1, [⟨22, 1⟩, ⟨11, 0⟩], 1, 2 ^ 64 - 1⟩ : mpmc_bounded_queue_t Nat)._buffer[
        (2 ^ 64 - 1) &&& 1]? = some ⟨11, 0⟩ ∧
    (0 : Nat) = to_size_t 64 (2 ^ 64 - 1 + 1) ∧ (1 : Nat) = size_t_sub 64 2 1 ∧
    ∃ q', (⟨2, 1, [⟨22, 1⟩, ⟨11, 0⟩], 1, 2 ^ 64 - 1⟩ : mpmc_bounded_queue_t Nat).dequeue 64 1 5
        = .ok (true, 11, q') ∧
      q'._tail_seq = 0 ∧ q'._buffer[1]? = some ⟨11, 1⟩ ∧
      to_size_t 64 (2 ^ 64 - 1 + 1 + 1) = to_size_t 64 (2 ^ 64 - 1 + 2) ∧
      q'._head_seq = 1 ∧
      (∀ i : Nat, (q'._buffer[i]?).map node_t.data
        = (([⟨22, 1⟩, ⟨11, 0⟩] : List (node_t Nat))[i]?).map node_t.data) ∧
      (∀ i, i ≠ 1 → q'._buffer[i]? = ([⟨22, 1⟩, ⟨11, 0⟩] : List (node_t Nat))[i]?) ∧
      q'._buffer.length = 2 ∧ q'._size = 2 ∧ q'._mask = 1 :=
  ⟨rfl, by decide, by decide, dequeue_success_effect 64 0
    (⟨2, 1, [⟨22, 1⟩, ⟨11, 0⟩], 1, 2 ^ 64 - 1⟩ : mpmc_bounded_queue_t Nat) 5
    ⟨11, 0⟩ rfl (by decide) (by decide)⟩

/-- C13 (initial state). For every capacity `2 ^ k` that fits a `w`-bit word the constructor
returns a queue with `_head_seq = 0`, `_tail_seq = 0`, `_mask = 2 ^ k - 1`, `_size = 2 ^ k`
and exactly `2 ^ k` slots, slot `i` carrying the sequence number `i`; on it `empty()` is
`true` and `size()` is 0. -/
theorem ctor_initial_state (w iw k : Nat) (hk : k < w) (mem : Nat → T) :
    ∃ q0, ctor w (2 ^ k) mem = some q0 ∧
      q0._head_seq = 0 ∧ q0._tail_seq = 0 ∧ q0._mask = 2 ^ k - 1 ∧ q0._size = 2 ^ k ∧
      q0._buffer.length = 2 ^ k ∧
      (∀ i, i < 2 ^ k → q0._buffer[i]? = some ⟨mem i, i⟩) ∧
      q0.empty = true ∧ q0.size w iw = 0 := by
  refine ⟨_, ctor_pow hk mem, rfl, rfl, rfl, rfl, by simp [seed], ?_, rfl, ?_⟩
  · intro i hi
    exact seed_getElem? mem _ i hi
  · simp only [mpmc_bounded_queue_t.size, ge_iff_le, Nat.le_refl, if_true, size_t_sub_self]
    exact wrap_signed_zero iw

/-- Witness of C13: eight slots on a 64-bit word with a 32-bit `int`. -/
theorem ctor_initial_state_witness :
    3 < 64 ∧
    ∃ q0, ctor 64 (2 ^ 3) (fun i => i + 100) = some q0 ∧
      q0._head_seq = 0 ∧ q0._tail_seq = 0 ∧ q0._mask = 2 ^ 3 - 1 ∧ q0._size = 2 ^ 3 ∧
      q0._buffer.length = 2 ^ 3 ∧
      (∀ i, i < 2 ^ 3 → q0._buffer[i]? = some ⟨i + 100, i⟩) ∧
      q0.empty = true ∧ q0.size 64 32 = 0 :=
  ⟨by decide, ctor_initial_state 64 32 3 (by decide) (fun i => i + 100)⟩

/-- C14 (signed-difference test across wraparound). For every capacity `2 ^ k` with
`1 ≤ k < w`, so between 2 and `2 ^ (w - 1)`, and every state of `w`-bit cursors with
`_mask = 2 ^ k - 1` that satisfies the slot-sequence invariant modulo `2 ^ w`: the difference
`enqueue` computes is negative exactly when the occupancy `(head - tail) mod 2 ^ w` is
`2 ^ k` and zero otherwise, the one `dequeue` computes is negative exactly when
`head = tail` and zero otherwise; `enqueue` returns `false` exactly on the full queue and
`dequeue` exactly on the empty one, each on any positive fuel. -/
theorem signed_difference_across_wraparound (w k : Nat) (hk1 : 0 < k) (hk : k < w)
    (q : mpmc_bounded_queue_t T) (hmask : q._mask = 2 ^ k - 1) (hh : q._head_seq < 2 ^ w)
    (ht : q._tail_seq < 2 ^ w) (hinv : slot_invariant w (2 ^ k) q) :
    ∃ de dd, enqueue_dif w q = some de ∧ dequeue_dif w q = some dd ∧
      (de < 0 ↔ size_t_sub w q._head_seq q._tail_seq = 2 ^ k) ∧
      (de = 0 ↔ size_t_sub w q._head_seq q._tail_seq ≠ 2 ^ k) ∧
      (dd < 0 ↔ q._head_seq = q._tail_seq) ∧
      (dd = 0 ↔ q._head_seq ≠ q._tail_seq) ∧
      (∀ (fuel : Nat) (v : T), ∃ r q', q.enqueue w (fuel + 1) v = .ok (r, q') ∧
        (r = false ↔ size_t_sub w q._head_seq q._tail_seq = 2 ^ k)) ∧
      (∀ (fuel : Nat) (out : T), ∃ r d q', q.dequeue w (fuel + 1) out = .ok (r, d, q') ∧
        (r = false ↔ q._head_seq = q._tail_seq)) :=
  difs_of_slot_invariant hk1 hk hmask hh ht hinv

/-- Witness of C14: a queue of two slots on a 64-bit word that holds one value, with the
tail cursor at the largest word and the head cursor wrapped to 0. -/
theorem signed_difference_across_wraparound_witness :
    0 < 1 ∧ 1 < 64 ∧ (1 : Nat) = 2 ^ 1 - 1 ∧ (0 : Nat) < 2 ^ 64 ∧ 2 ^ 64 - 1 < 2 ^ 64 ∧
    slot_invariant 64 (2 ^ 1)
      (⟨2, 1, [⟨22, 0⟩, ⟨11, 0⟩], 0, 2 ^ 64 - 1⟩ : mpmc_bounded_queue_t Nat) ∧
    ∃ de dd,
      enqueue_dif 64 (⟨2, 1, [⟨22, 0⟩, ⟨11, 0⟩], 0, 2 ^ 64 - 1⟩ : mpmc_bounded_queue_t Nat)
        = some de ∧
      dequeue_dif 64 (⟨2, 1, [⟨22, 0⟩, ⟨11, 0⟩], 0, 2 ^ 64 - 1⟩ : mpmc_bounded_queue_t Nat)
        = some dd ∧
      (de < 0 ↔ size_t_sub 64 0 (2 ^ 64 - 1) = 2 ^ 1) ∧
      (de = 0 ↔ size_t_sub 64 0 (2 ^ 64 - 1) ≠ 2 ^ 1) ∧
      (dd < 0 ↔ 0 = 2 ^ 64 - 1) ∧ (dd = 0 ↔ 0 ≠ 2 ^ 64 - 1) ∧
      (∀ (fuel : Nat) (v : Nat), ∃ r q',
        (⟨2, 1, [⟨22, 0⟩, ⟨11, 0⟩], 0, 2 ^ 64 - 1⟩ : mpmc_bounded_queue_t Nat).enqueue 64
            (fuel + 1) v = .ok (r, q') ∧
        (r = false ↔ size_t_sub 64 0 (2 ^ 64 - 1) = 2 ^ 1)) ∧
      (∀ (fuel : Nat) (out : Nat), ∃ r d q',
        (⟨2, 1, [⟨22, 0⟩, ⟨11, 0⟩], 0, 2 ^ 64 - 1⟩ : mpmc_bounded_queue_t Nat).dequeue 64
            (fuel + 1) out = .ok (r, d, q') ∧
        (r = false ↔ 0 = 2 ^ 64 - 1)) :=
  ⟨by decide, by decide, by decide, by decide, by decide, by decide,
    signed_difference_across_wraparound 64 1 (by decide) (by decide)
      (⟨2, 1, [⟨22, 0⟩, ⟨11, 0⟩], 0, 2 ^ 64 - 1⟩ : mpmc_bounded_queue_t Nat)
      (by decide) (by decide) (by decide) (by decide)⟩

/-- C15 (the retry branch in single-threaded use), evaluated at the failing input: on the
queue of one slot two calls of `enqueue` return `true`; in the state they reach the
difference `dequeue` computes is 1, and `dequeue` does not return on any amount of fuel. -/
theorem capacity_one_dequeue_never_returns :
    ctor 64 1 (fun _ => (0 : Nat)) = some ⟨1, 0, [⟨0, 0⟩], 0, 0⟩ ∧
    run 64 1 (⟨1, 0, [⟨0, 0⟩], 0, 0⟩ : mpmc_bounded_queue_t Nat)
        [call.enqueue 10, call.enqueue 20]
      = .ok ([(true, 10), (true, 20)], ⟨1, 0, [⟨20, 2⟩], 2, 0⟩) ∧
    dequeue_dif 64 (⟨1, 0, [⟨20, 2⟩], 2, 0⟩ : mpmc_bounded_queue_t Nat) = some 1 ∧
    ∀ (fuel out : Nat),
      (⟨1, 0, [⟨20, 2⟩], 2, 0⟩ : mpmc_bounded_queue_t Nat).dequeue 64 fuel out
        = .error .out_of_fuel :=
  ⟨rfl, rfl, rfl,
    dequeue_of_dif_pos 64 (⟨1, 0, [⟨20, 2⟩], 2, 0⟩ : mpmc_bounded_queue_t Nat) ⟨20, 2⟩ rfl
      (by decide)⟩

/-- C16 (`size()` as the logical occupancy), evaluated at the failing input: on a queue of
two slots on a 64-bit word, one `enqueue` followed by `2 ^ 64 - 1` rounds of
`dequeue; enqueue` reaches `_head_seq = 0` and `_tail_seq = 2 ^ 64 - 1`, an occupancy of 1
that is at most the capacity, and there `size()` returns 3. -/
theorem size_after_head_wrap_is_not_occupancy :
    ∃ q0 q, ctor 64 (2 ^ 1) (fun _ => (0 : Nat)) = some q0 ∧
      run 64 1 q0 (call.enqueue 7 :: churn 7 0 (2 ^ 64 - 1))
        = .ok ((true, 7) :: churn_results 7 (2 ^ 64 - 1), q) ∧
      q._size = 2 ∧ q._head_seq = 0 ∧ q._tail_seq = 2 ^ 64 - 1 ∧
      size_t_sub 64 q._head_seq q._tail_seq = 1 ∧ q.size 64 32 = 3 := by
  obtain ⟨q0, q, h0, hr, h⟩ :=
    run_enqueue_churn (show 1 < 64 by decide) (fun _ => (0 : Nat)) 0 7 0 (2 ^ 64 - 1)
  have hh : q._head_seq = 0 := by rw [h.2.2.2.2.1]; decide
  have ht : q._tail_seq = 2 ^ 64 - 1 := by rw [h.2.2.2.1]; decide
  refine ⟨q0, q, h0, hr, h.1, hh, ht, by rw [hh, ht]; decide, ?_⟩
  simp only [mpmc_bounded_queue_t.size, hh, ht, h.1]; decide

/-- C17 (`begin()` and the front element), evaluated at the failing input: on a queue of two
slots, after `enqueue(11); enqueue(22); dequeue; dequeue; enqueue(33)` the queue is not
empty, `begin()` carries the offset 2, dereferencing it indexes outside the two slots, and
the next `dequeue` returns 33. -/
theorem begin_indexes_outside_buffer :
    ctor 64 2 (fun _ => (0 : Nat)) = some ⟨2, 1, [⟨0, 0⟩, ⟨0, 1⟩], 0, 0⟩ ∧
    run 64 1 (⟨2, 1, [⟨0, 0⟩, ⟨0, 1⟩], 0, 0⟩ : mpmc_bounded_queue_t Nat)
        [call.enqueue 11, call.enqueue 22, call.dequeue 0, call.dequeue 0, call.enqueue 33]
      = .ok ([(true, 11), (true, 22), (true, 11), (true, 22), (true, 33)],
          ⟨2, 1, [⟨33, 3⟩, ⟨22, 3⟩], 3, 2⟩) ∧
    (⟨2, 1, [⟨33, 3⟩, ⟨22, 3⟩], 3, 2⟩ : mpmc_bounded_queue_t Nat).empty = false ∧
    ((⟨2, 1, [⟨33, 3⟩, ⟨22, 3⟩], 3, 2⟩ : mpmc_bounded_queue_t Nat).begin 64 32).myOffset = 2 ∧
    (⟨2, 1, [⟨33, 3⟩, ⟨22, 3⟩], 3, 2⟩ : mpmc_bounded_queue_t Nat)._buffer.length = 2 ∧
    mpmc_bounded_queue_iter_t.operator_star
        (⟨2, 1, [⟨33, 3⟩, ⟨22, 3⟩], 3, 2⟩ : mpmc_bounded_queue_t Nat)
        ((⟨2, 1, [⟨33, 3⟩, ⟨22, 3⟩], 3, 2⟩ : mpmc_bounded_queue_t Nat).begin 64 32)
      = .error .out_of_bounds ∧
    (⟨2, 1, [⟨33, 3⟩, ⟨22, 3⟩], 3, 2⟩ : mpmc_bounded_queue_t Nat).dequeue 64 1 0
      = .ok (true, 33, ⟨2, 1, [⟨33, 4⟩, ⟨22, 3⟩], 3, 3⟩) :=
  ⟨rfl, rfl, rfl, rfl, rfl, rfl, rfl⟩

/-- C18 (`push_front` and `push_back`), evaluated at the failing input: on the queue of one
slot that already holds 10, so is full, `push_front(20)` and `push_back(20)` both return a
queue that differs from the one they were called on: the slot holds 20. -/
theorem capacity_one_push_front_overwrites :
    ctor 64 1 (fun _ => (0 : Nat)) = some ⟨1, 0, [⟨0, 0⟩], 0, 0⟩ ∧
    (⟨1, 0, [⟨0, 0⟩], 0, 0⟩ : mpmc_bounded_queue_t Nat).enqueue 64 1 10
      = .ok (true, ⟨1, 0, [⟨10, 1⟩], 1, 0⟩) ∧
    size_t_sub 64 1 0 = 1 ∧
    (⟨1, 0, [⟨10, 1⟩], 1, 0⟩ : mpmc_bounded_queue_t Nat).push_front 64 1 20
      = .ok ⟨1, 0, [⟨20, 2⟩], 2, 0⟩ ∧
    (⟨1, 0, [⟨10, 1⟩], 1, 0⟩ : mpmc_bounded_queue_t Nat).push_back 64 1 20
      = .ok ⟨1, 0, [⟨20, 2⟩], 2, 0⟩ ∧
    (⟨1, 0, [⟨20, 2⟩], 2, 0⟩ : mpmc_bounded_queue_t Nat) ≠ ⟨1, 0, [⟨10, 1⟩], 1, 0⟩ :=
  ⟨rfl, rfl, by decide, rfl, rfl, by decide⟩

end MpmcBoundedQueue
